import Mathlib

/-!
Verification of the go-sigv4 signer (package signer).

Shallow embedding conventions:
* Go strings and byte slices are modelled as List Nat, each element a byte
  value (< 256 for well-formed data).  Go strings are byte sequences, so this
  is the faithful representation; ASCII literals are injected with asciiBytes.
* Go maps that the code iterates over (http.Header, url.Values) are modelled
  as association lists in insertion order; Go's unspecified map iteration
  order is fixed to list order, which is the only deterministic refinement.
* The standard library crypto primitives (crypto/sha256, crypto/hmac) are
  not part of the repository; they are embedded by their public
  specification (FIPS 180-4 SHA-256, RFC 2104 HMAC), cross-checked below
  against the repository's own EmptyStringSHA256 constant.
* time.Time is modelled as a UTC civil timestamp at second granularity
  (the signer only consumes Date() and the two Format patterns).
-/

set_option maxRecDepth 10000

/-- ASCII bytes of a Lean string literal (all literals in the repository are
ASCII, where UTF-8 bytes coincide with code points). -/
def asciiBytes (s : String) : List Nat := s.data.map Char.toNat

/-- ASCII lower-casing of a byte string; models strings.ToLower on the
ASCII header names and patterns used by the signer. -/
def toLowerAscii (s : List Nat) : List Nat :=
  s.map (fun c => if 65 ≤ c ∧ c ≤ 90 then c + 32 else c)

/-- ASCII case-insensitive equality; models strings.EqualFold on ASCII. -/
def equalFold (a b : List Nat) : Bool := toLowerAscii a == toLowerAscii b

/-- Byte-wise lexicographic ordering on byte strings, as used by
sort.Strings and url.Values.Encode key sorting. -/
def lexLe : List Nat → List Nat → Bool
  | [], _ => true
  | _ :: _, [] => false
  | a :: as, b :: bs => if a < b then true else if b < a then false else lexLe as bs

/-- Insertion into a list sorted by le (stable: equal keys keep order). -/
def insSorted (le : α → α → Bool) (x : α) : List α → List α
  | [] => [x]
  | y :: ys => if le x y then x :: y :: ys else y :: insSorted le x ys

/-- Stable insertion sort by the boolean relation le. -/
def insSortBy (le : α → α → Bool) : List α → List α
  | [] => []
  | x :: xs => insSorted le x (insSortBy le xs)

/-- 32-bit right rotation on Nat words. -/
def rotr32 (n x : Nat) : Nat := ((x >>> n) ||| (x <<< (32 - n))) % 4294967296

/-- 32-bit modular addition. -/
def add32 (a b : Nat) : Nat := (a + b) % 4294967296

/-- SHA-256 round constants (FIPS 180-4). -/
def sha256K : List Nat :=
  [1116352408, 1899447441, 3049323471, 3921009573, 961987163, 1508970993,
   2453635748, 2870763221, 3624381080, 310598401, 607225278, 1426881987,
   1925078388, 2162078206, 2614888103, 3248222580, 3835390401, 4022224774,
   264347078, 604807628, 770255983, 1249150122, 1555081692, 1996064986,
   2554220882, 2821834349, 2952996808, 3210313671, 3336571891, 3584528711,
   113926993, 338241895, 666307205, 773529912, 1294757372, 1396182291,
   1695183700, 1986661051, 2177026350, 2456956037, 2730485921, 2820302411,
   3259730800, 3345764771, 3516065817, 3600352804, 4094571909, 275423344,
   430227734, 506948616, 659060556, 883997877, 958139571, 1322822218,
   1537002063, 1747873779, 1955562222, 2024104815, 2227730452, 2361852424,
   2428436474, 2756734187, 3204031479, 3329325298]

/-- Working state of the SHA-256 compression function. -/
structure Sha256St where
  a : Nat
  b : Nat
  c : Nat
  d : Nat
  e : Nat
  f : Nat
  g : Nat
  h : Nat
deriving Repr, DecidableEq

/-- One round of the SHA-256 compression function. -/
def shaRound (st : Sha256St) (k w : Nat) : Sha256St :=
  let s1 := (rotr32 6 st.e) ^^^ (rotr32 11 st.e) ^^^ (rotr32 25 st.e)
  let ch := (st.e &&& st.f) ^^^ ((st.e ^^^ 4294967295) &&& st.g)
  let t1 := add32 (add32 (add32 (add32 st.h s1) ch) k) w
  let s0 := (rotr32 2 st.a) ^^^ (rotr32 13 st.a) ^^^ (rotr32 22 st.a)
  let maj := (st.a &&& st.b) ^^^ (st.a &&& st.c) ^^^ (st.b &&& st.c)
  let t2 := add32 s0 maj
  ⟨add32 t1 t2, st.a, st.b, st.c, add32 st.d t1, st.e, st.f, st.g⟩

/-- Next message-schedule word; the argument holds the words produced so far,
most recent first. -/
def schedNext (w : List Nat) : Nat :=
  let g := fun i => w.getD i 0
  let s0 := (rotr32 7 (g 14)) ^^^ (rotr32 18 (g 14)) ^^^ ((g 14) >>> 3)
  let s1 := (rotr32 17 (g 1)) ^^^ (rotr32 19 (g 1)) ^^^ ((g 1) >>> 10)
  add32 (add32 (g 15) s0) (add32 (g 6) s1)

/-- Extend the reversed schedule list by n further words. -/
def extendSched : Nat → List Nat → List Nat
  | 0, w => w
  | n + 1, w => extendSched n (schedNext w :: w)

/-- Full 64-word message schedule from a 16-word block. -/
def buildSched (block16 : List Nat) : List Nat :=
  (extendSched 48 block16.reverse).reverse

/-- SHA-256 compression of one 16-word block into the chaining state. -/
def shaCompress (st0 : Sha256St) (block16 : List Nat) : Sha256St :=
  let ws := buildSched block16
  let stF := (sha256K.zip ws).foldl (fun st kw => shaRound st kw.1 kw.2) st0
  ⟨add32 st0.a stF.a, add32 st0.b stF.b, add32 st0.c stF.c, add32 st0.d stF.d,
   add32 st0.e stF.e, add32 st0.f stF.f, add32 st0.g stF.g, add32 st0.h stF.h⟩

/-- Big-endian packing of bytes into 32-bit words, 4 bytes per word. -/
def bytesToWords : List Nat → List Nat
  | b1 :: b2 :: b3 :: b4 :: rest =>
      (b1 * 16777216 + b2 * 65536 + b3 * 256 + b4) :: bytesToWords rest
  | _ => []

/-- Split a byte list into 64-byte chunks (fuel-structured so that the
kernel can evaluate it; the fuel is the list length, which suffices since
every step consumes at least one element). -/
def chunk64Aux : Nat → List Nat → List (List Nat)
  | _, [] => []
  | 0, _ => []
  | fuel + 1, l => l.take 64 :: chunk64Aux fuel (l.drop 64)

/-- Split a byte list into 64-byte chunks. -/
def chunk64 (l : List Nat) : List (List Nat) := chunk64Aux l.length l

/-- Big-endian 8-byte encoding of a bit length. -/
def be8 (n : Nat) : List Nat :=
  [(n >>> 56) % 256, (n >>> 48) % 256, (n >>> 40) % 256, (n >>> 32) % 256,
   (n >>> 24) % 256, (n >>> 16) % 256, (n >>> 8) % 256, n % 256]

/-- SHA-256 message padding (FIPS 180-4 section 5.1.1). -/
def shaPad (msg : List Nat) : List Nat :=
  let L := msg.length
  let k := (119 - L % 64) % 64
  msg ++ [128] ++ List.replicate k 0 ++ be8 (L * 8)

/-- Big-endian 4-byte encoding of a 32-bit word. -/
def wordBE4 (n : Nat) : List Nat :=
  [(n >>> 24) % 256, (n >>> 16) % 256, (n >>> 8) % 256, n % 256]

/-- SHA-256 of a byte string (FIPS 180-4); models crypto/sha256. -/
def sha256 (msg : List Nat) : List Nat :=
  let init : Sha256St := ⟨0x6a09e667, 0xbb67ae85, 0x3c6ef372, 0xa54ff53a,
                          0x510e527f, 0x9b05688c, 0x1f83d9ab, 0x5be0cd19⟩
  let blocks := (chunk64 (shaPad msg)).map bytesToWords
  let fin := blocks.foldl shaCompress init
  wordBE4 fin.a ++ wordBE4 fin.b ++ wordBE4 fin.c ++ wordBE4 fin.d ++
  wordBE4 fin.e ++ wordBE4 fin.f ++ wordBE4 fin.g ++ wordBE4 fin.h

/-- Lowercase hex digit byte for a value below 16 (encoding/hex alphabet). -/
def hexChar (d : Nat) : Nat := if d < 10 then 48 + d else 87 + d

/-- Lowercase hex encoding of a byte string; models hex.EncodeToString. -/
def bytesToHex (l : List Nat) : List Nat :=
  l.flatMap (fun b => [hexChar (b / 16), hexChar (b % 16)])

/-- HMACSHA256 computes HMAC-SHA256 of data with the given key; models the
repository's HMACSHA256 built on crypto/hmac with a 64-byte block size
(RFC 2104). -/
def HMACSHA256 (key data : List Nat) : List Nat :=
  let k0 := if 64 < key.length then sha256 key else key
  let kp := k0 ++ List.replicate (64 - k0.length) 0
  let ipadded := kp.map (fun b => b ^^^ 0x36)
  let opadded := kp.map (fun b => b ^^^ 0x5c)
  sha256 (opadded ++ sha256 (ipadded ++ data))

example : bytesToHex (sha256 []) =
    asciiBytes "e3b0c44298fc1c149afbf4c8996fb92427ae41e4649b934ca495991b7852b855" := by
  decide

/-! ## Time model (src/signer/keyderivator.go, constants.go, unnamed time file) -/

/-- UTC civil timestamp at second granularity; models the projection of
time.Time that the signer consumes (Date() and the two Format layouts).
NewSigningTime converts to UTC, so fields are UTC components. -/
structure GoTime where
  year : Nat
  month : Nat
  day : Nat
  hour : Nat
  minute : Nat
  second : Nat
deriving Repr, DecidableEq

/-- Two-digit zero-padded decimal (Go format verbs 01, 02, 15, 04, 05). -/
def pad2 (n : Nat) : List Nat := [48 + n / 10 % 10, 48 + n % 10]

/-- Four-digit zero-padded decimal (Go format verb 2006 for the year). -/
def pad4 (n : Nat) : List Nat :=
  [48 + n / 1000 % 10, 48 + n / 100 % 10, 48 + n / 10 % 10, 48 + n % 10]

/-- ShortTimeFormat: YYYYMMDD (layout 20060102), the credential-scope date. -/
def GoTime.shortTimeFormat (t : GoTime) : List Nat :=
  pad4 t.year ++ pad2 t.month ++ pad2 t.day

/-- TimeFormat: YYYYMMDDTHHMMSSZ (layout 20060102T150405Z), X-Amz-Date. -/
def GoTime.timeFormat (t : GoTime) : List Nat :=
  pad4 t.year ++ pad2 t.month ++ pad2 t.day ++ [84] ++
  pad2 t.hour ++ pad2 t.minute ++ pad2 t.second ++ [90]

/-- isSameDay checks if two times are on the same day (t.Date() triples). -/
def isSameDay (t1 t2 : GoTime) : Bool :=
  t1.year == t2.year && t1.month == t2.month && t1.day == t2.day

/-! ## Key derivation and cache (src/signer/derivekey.go, keyderivator.go) -/

/-- DeriveKey performs the SigV4 key derivation chain
kDate, kRegion, kService, kSigning (src/signer/derivekey.go). -/
def DeriveKey (secret service region : List Nat) (t : GoTime) : List Nat :=
  let dateStr := t.shortTimeFormat
  let kDate := HMACSHA256 (asciiBytes "AWS4" ++ secret) dateStr
  let kRegion := HMACSHA256 kDate region
  let kService := HMACSHA256 kRegion service
  HMACSHA256 kService (asciiBytes "aws4_request")

/-- A cached derived key entry (struct derivedKey). -/
structure DerivedKeyEntry where
  accessKeyID : List Nat
  date : GoTime
  key : List Nat
deriving Repr, DecidableEq

/-- The derived-key cache; the Go map from lookup keys to entries is
modelled as an association list in insertion order. -/
abbrev DKCache := List (List Nat × DerivedKeyEntry)

/-- First association for a key, modelling Go map lookup. -/
def assocFind : List (List Nat × α) → List Nat → Option α
  | [], _ => none
  | kv :: m, k => if kv.1 = k then some kv.2 else assocFind m k

/-- Key presence, modelling the ok result of a Go map lookup. -/
def assocHas : List (List Nat × α) → List Nat → Bool
  | [], _ => false
  | kv :: m, k => if kv.1 = k then true else assocHas m k

/-- lookupKey creates a cache key from service and region:
region + "/" + service. -/
def lookupKey (service region : List Nat) : List Nat :=
  region ++ [47] ++ service

/-- derivedKeyCache.get retrieves a cached key if it exists and is valid:
same access key id and same calendar day. -/
def cacheGet (c : DKCache) (key accessKeyID : List Nat) (t : GoTime) :
    Option (List Nat) :=
  match assocFind c key with
  | none => none
  | some entry =>
      if entry.accessKeyID ≠ accessKeyID then none
      else if ¬ (isSameDay t entry.date = true) then none
      else some entry.key

/-- Replace the value stored at a key, keeping its position, or append;
models Go map assignment on the association-list representation. -/
def assocSet (m : List (List Nat × α)) (k : List Nat) (v : α) :
    List (List Nat × α) :=
  if assocHas m k then
    m.map (fun kv => if kv.1 = k then (kv.1, v) else kv)
  else m ++ [(k, v)]

/-- derivedKeyCache.set stores a derived key in the cache (map assignment). -/
def cacheSet (c : DKCache) (key accessKeyID : List Nat) (t : GoTime)
    (k : List Nat) : DKCache :=
  assocSet c key ⟨accessKeyID, t, k⟩

/-- Alias for the package-level DeriveKey, needed because inside the
namespace of the method below the bare name would resolve to the method. -/
def deriveKeyFn : List Nat → List Nat → List Nat → GoTime → List Nat :=
  DeriveKey

/-- SigningKeyDeriver.DeriveKey: consult the cache keyed by region/service,
return the hit, otherwise derive and store.  The cache is threaded
explicitly (the Go method mutates the Signer's cache). -/
def SigningKeyDeriver.DeriveKey (c : DKCache)
    (accessKeyID secretAccessKey service region : List Nat) (t : GoTime) :
    List Nat × DKCache :=
  let cacheKey := lookupKey service region
  match cacheGet c cacheKey accessKeyID t with
  | some key => (key, c)
  | none =>
      let key := deriveKeyFn secretAccessKey service region t
      (key, cacheSet c cacheKey accessKeyID t key)

/-! ## Header rule engine (src/signer/headers.go) -/

/-- The rule algebra of header_rules: map membership, exclusion, prefix
patterns, any-of (Rules) and all-of (InclusiveRules) composition. -/
inductive Rule where
  | mapRule (names : List (List Nat)) : Rule
  | excludeList (inner : Rule) : Rule
  | patterns (pats : List (List Nat)) : Rule
  | anyOf (rs : List Rule) : Rule
  | allOf (rs : List Rule) : Rule
deriving Repr

mutual

/-- Rule.IsValid: MapRule is exact map membership; ExcludeList negates;
Patterns lower-cases candidate and pattern and tests the prefix;
Rules is any-of; InclusiveRules is all-of. -/
def Rule.IsValid : Rule → List Nat → Bool
  | .mapRule names, v => names.contains v
  | .excludeList r, v => ! (Rule.IsValid r v)
  | .patterns ps, v =>
      ps.any (fun p => List.isPrefixOf (toLowerAscii p) (toLowerAscii v))
  | .anyOf rs, v => Rule.anyValid rs v
  | .allOf rs, v => Rule.allValid rs v

/-- Rules.IsValid: true if any rule in the slice validates the value. -/
def Rule.anyValid : List Rule → List Nat → Bool
  | [], _ => false
  | r :: rs, v => Rule.IsValid r v || Rule.anyValid rs v

/-- InclusiveRules.IsValid: true if all rules validate the value. -/
def Rule.allValid : List Rule → List Nat → Bool
  | [], _ => true
  | r :: rs, v => Rule.IsValid r v && Rule.allValid rs v

end

/-- IgnoredHeaders: exclusion of the five never-signed header names. -/
def IgnoredHeaders : Rule :=
  .anyOf [.excludeList (.mapRule
    [asciiBytes "Authorization", asciiBytes "User-Agent",
     asciiBytes "X-Amzn-Trace-Id", asciiBytes "Expect",
     asciiBytes "Transfer-Encoding"])]

/-- RequiredSignedHeaders: the fixed always-signed name set plus the two
prefix families. -/
def RequiredSignedHeaders : Rule :=
  .anyOf
    [.mapRule
      [asciiBytes "Cache-Control", asciiBytes "Content-Disposition",
       asciiBytes "Content-Encoding", asciiBytes "Content-Language",
       asciiBytes "Content-Md5", asciiBytes "Content-Type",
       asciiBytes "Expires", asciiBytes "If-Match",
       asciiBytes "If-Modified-Since", asciiBytes "If-None-Match",
       asciiBytes "If-Unmodified-Since", asciiBytes "Range",
       asciiBytes "X-Amz-Acl", asciiBytes "X-Amz-Copy-Source",
       asciiBytes "X-Amz-Copy-Source-If-Match",
       asciiBytes "X-Amz-Copy-Source-If-Modified-Since",
       asciiBytes "X-Amz-Copy-Source-If-None-Match",
       asciiBytes "X-Amz-Copy-Source-If-Unmodified-Since",
       asciiBytes "X-Amz-Copy-Source-Range",
       asciiBytes "X-Amz-Copy-Source-Server-Side-Encryption-Customer-Algorithm",
       asciiBytes "X-Amz-Copy-Source-Server-Side-Encryption-Customer-Key",
       asciiBytes "X-Amz-Copy-Source-Server-Side-Encryption-Customer-Key-Md5",
       asciiBytes "X-Amz-Grant-Full-control", asciiBytes "X-Amz-Grant-Read",
       asciiBytes "X-Amz-Grant-Read-Acp", asciiBytes "X-Amz-Grant-Write",
       asciiBytes "X-Amz-Grant-Write-Acp", asciiBytes "X-Amz-Metadata-Directive",
       asciiBytes "X-Amz-Mfa", asciiBytes "X-Amz-Server-Side-Encryption",
       asciiBytes "X-Amz-Server-Side-Encryption-Aws-Kms-Key-Id",
       asciiBytes "X-Amz-Server-Side-Encryption-Context",
       asciiBytes "X-Amz-Server-Side-Encryption-Customer-Algorithm",
       asciiBytes "X-Amz-Server-Side-Encryption-Customer-Key",
       asciiBytes "X-Amz-Server-Side-Encryption-Customer-Key-Md5",
       asciiBytes "X-Amz-Storage-Class",
       asciiBytes "X-Amz-Website-Redirect-Location",
       asciiBytes "X-Amz-Content-Sha256", asciiBytes "X-Amz-Tagging"],
     .patterns [asciiBytes "X-Amz-Object-Lock-"],
     .patterns [asciiBytes "X-Amz-Meta-"]]

/-- AllowedQueryHoisting: an X-Amz- prefixed header that is not required
to stay signed. -/
def AllowedQueryHoisting : Rule :=
  .allOf [.excludeList RequiredSignedHeaders, .patterns [asciiBytes "X-Amz-"]]

/-! ## String utilities (unnamed util file: StripExcessSpaces, StripPort,
PortOnly, IsDefaultPort) -/

/-- True when the string contains two consecutive spaces. -/
def hasDoubleSpace : List Nat → Bool
  | 32 :: 32 :: _ => true
  | _ :: rest => hasDoubleSpace rest
  | [] => false

/-- Drop leading spaces (only ASCII space, as in the Go loop). -/
def trimLeadingSpaces (s : List Nat) : List Nat := s.dropWhile (· == 32)

/-- Drop trailing spaces (only ASCII space, as in the Go loop). -/
def trimTrailingSpaces (s : List Nat) : List Nat :=
  (s.reverse.dropWhile (· == 32)).reverse

/-- Collapse space runs to single spaces; the flag records whether the
current run already emitted its space (the Go spaces counter). -/
def collapseSpaces : Bool → List Nat → List Nat
  | _, [] => []
  | inRun, c :: rest =>
      if c == 32 then
        if inRun then collapseSpaces true rest
        else 32 :: collapseSpaces true rest
      else c :: collapseSpaces false rest

/-- StripExcessSpaces: trim leading and trailing spaces, then collapse
interior runs (with the double-space fast path of the source). -/
def StripExcessSpaces (str : List Nat) : List Nat :=
  let t := trimLeadingSpaces (trimTrailingSpaces str)
  if hasDoubleSpace t then collapseSpaces false t else t

/-- ASCII whitespace test for strings.TrimSpace (the signer only feeds it
ASCII header values). -/
def isSpaceByte (c : Nat) : Bool :=
  c == 32 || c == 9 || c == 10 || c == 11 || c == 12 || c == 13

/-- strings.TrimSpace, restricted to ASCII whitespace. -/
def trimSpace (s : List Nat) : List Nat :=
  ((s.dropWhile isSpaceByte).reverse.dropWhile isSpaceByte).reverse

/-- strings.IndexByte. -/
def indexByte : List Nat → Nat → Option Nat
  | [], _ => none
  | x :: xs, c => if x = c then some 0 else (indexByte xs c).map (· + 1)

/-- strings.Index for a multi-byte pattern: first position where the
pattern is a prefix of the remaining suffix. -/
def indexOfSub : List Nat → List Nat → Option Nat
  | s, pat =>
    match s with
    | [] => if pat = [] then some 0 else none
    | _ :: rest =>
        if pat.isPrefixOf s then some 0
        else (indexOfSub rest pat).map (· + 1)

/-- strings.TrimPrefix. -/
def trimPrefixL (s p : List Nat) : List Nat :=
  if p.isPrefixOf s then s.drop p.length else s

/-- StripPort removes the port from a host:port string. -/
def StripPort (hostport : List Nat) : List Nat :=
  match indexByte hostport 58 with
  | none => hostport
  | some colon =>
      match indexByte hostport 93 with
      | some i => trimPrefixL (hostport.take i) (asciiBytes "[")
      | none => hostport.take colon

/-- PortOnly returns the port part of a host:port string. -/
def PortOnly (hostport : List Nat) : List Nat :=
  match indexByte hostport 58 with
  | none => []
  | some colon =>
      match indexOfSub hostport (asciiBytes "]:") with
      | some i => hostport.drop (i + 2)
      | none =>
          if hostport.contains 93 then []
          else hostport.drop (colon + 1)

/-- IsDefaultPort checks if port is the default for the scheme. -/
def IsDefaultPort (scheme port : List Nat) : Bool :=
  if port = [] then true
  else
    let lowerScheme := toLowerAscii scheme
    (lowerScheme == asciiBytes "http" && port == asciiBytes "80") ||
    (lowerScheme == asciiBytes "https" && port == asciiBytes "443")

/-! ## URL and request model (net/http, net/url surface used by the signer) -/

/-- The projection of net/url URL that the signer consumes.  EscapedPath()
is carried as a field (the already-percent-encoded path); the repository
never writes Path or RawPath, it only reads EscapedPath. -/
structure URLV where
  scheme : List Nat
  opaqueStr : List Nat
  host : List Nat
  escapedPath : List Nat
  rawQuery : List Nat
deriving Repr, DecidableEq

/-- Header map in insertion order (Go http.Header with a fixed iteration
order). -/
abbrev HttpHeader := List (List Nat × List (List Nat))

/-- The projection of http.Request consumed by the signer. -/
structure HttpRequest where
  method : List Nat
  url : URLV
  header : HttpHeader
  host : List Nat
  contentLength : Int
deriving Repr, DecidableEq

/-- GetHost returns the host from the request. -/
def GetHost (r : HttpRequest) : List Nat :=
  if r.host ≠ [] then r.host else r.url.host

/-- SanitizeHostForHeader removes a default port from the request host. -/
def SanitizeHostForHeader (r : HttpRequest) : HttpRequest :=
  let host := GetHost r
  let port := PortOnly host
  if port ≠ [] ∧ IsDefaultPort r.url.scheme port = true then
    { r with host := StripPort host }
  else r

/-- GetURIPath returns the URI path from the URL with no additional
escaping (unnamed util file). -/
def GetURIPath (u : URLV) : List Nat :=
  let uriPath :=
    if u.opaqueStr.length > 0 then
      let o1 :=
        match indexByte u.opaqueStr 63 with
        | some idx => u.opaqueStr.take idx
        | none => u.opaqueStr
      let o2 := if (asciiBytes "//").isPrefixOf o1 then o1.drop 2 else o1
      match indexByte o2 47 with
      | some idx => o2.drop idx
      | none => []
    else u.escapedPath
  if uriPath.length = 0 then asciiBytes "/" else uriPath

/-! ## Query values (net/url Values: parse, escape, encode) -/

/-- url.Values in insertion order. -/
abbrev UrlValues := List (List Nat × List (List Nat))

/-- ASCII letters and digits. -/
def isAlnumByte (c : Nat) : Bool :=
  (97 ≤ c && c ≤ 122) || (65 ≤ c && c ≤ 90) || (48 ≤ c && c ≤ 57)

/-- Go url.QueryEscape byte classification: keep only unreserved bytes. -/
def shouldEscape (c : Nat) : Bool :=
  ! (isAlnumByte c || c == 45 || c == 95 || c == 46 || c == 126)

/-- Uppercase hex digit byte (url escape alphabet). -/
def upperHex (d : Nat) : Nat := if d < 10 then 48 + d else 55 + d

/-- Escape of one byte in query-component mode: space to plus, other
reserved bytes to percent encoding. -/
def queryEscapeByte (c : Nat) : List Nat :=
  if shouldEscape c then
    if c == 32 then [43] else [37, upperHex (c / 16), upperHex (c % 16)]
  else [c]

/-- url.QueryEscape. -/
def queryEscape (s : List Nat) : List Nat := s.flatMap queryEscapeByte

/-- Hex digit test (either case), as url unescape accepts. -/
def isHexDigitB (c : Nat) : Bool :=
  (48 ≤ c && c ≤ 57) || (65 ≤ c && c ≤ 70) || (97 ≤ c && c ≤ 102)

/-- Value of a hex digit byte. -/
def hexVal (c : Nat) : Nat :=
  if c ≤ 57 then c - 48 else if c ≤ 70 then c - 55 else c - 87

/-- url.QueryUnescape: percent triples decode (failing on malformed
escapes), plus becomes space. -/
def queryUnescape : List Nat → Option (List Nat)
  | [] => some []
  | c :: rest =>
      if c = 37 then
        match rest with
        | a :: b :: rest2 =>
            if isHexDigitB a && isHexDigitB b then
              (queryUnescape rest2).map (fun r => (hexVal a * 16 + hexVal b) :: r)
            else none
        | _ => none
      else if c = 43 then (queryUnescape rest).map (fun r => 32 :: r)
      else (queryUnescape rest).map (fun r => c :: r)

/-- strings.Cut on a single separator byte: text before the first
occurrence and text after it (empty when absent). -/
def cutByte (s : List Nat) (sep : Nat) : List Nat × List Nat :=
  match indexByte s sep with
  | some i => (s.take i, s.drop (i + 1))
  | none => (s, [])

/-- m[key] = append(m[key], value) on the association-list model. -/
def valuesAdd (m : UrlValues) (k v : List Nat) : UrlValues :=
  if assocHas m k then
    m.map (fun kv => if kv.1 = k then (kv.1, kv.2 ++ [v]) else kv)
  else m ++ [(k, [v])]

/-- The per-component step of url.ParseQuery: reject components containing
a semicolon or with invalid escapes, skip empty components, accumulate the
unescaped key/value pair. -/
def parseStep (m : UrlValues) (comp : List Nat) : UrlValues :=
  if comp.contains 59 then m
  else if comp = [] then m
  else
    let kv := cutByte comp 61
    match queryUnescape kv.1, queryUnescape kv.2 with
    | some k, some v => valuesAdd m k v
    | _, _ => m

/-- url.ParseQuery as called through req.URL.Query(): split on ampersand,
then fold the component step. -/
def parseQuery (rq : List Nat) : UrlValues :=
  (rq.splitOn 38).foldl parseStep []

/-- url.Values.Set: replace the values of a key with a singleton. -/
def valuesSet (m : UrlValues) (k v : List Nat) : UrlValues := assocSet m k [v]

/-- Values of a key, empty when absent. -/
def valuesGetD (m : UrlValues) (k : List Nat) : List (List Nat) :=
  (assocFind m k).getD []

/-- Sort each key's value list (the sort.Strings loop in build). -/
def sortEachValues (m : UrlValues) : UrlValues :=
  m.map (fun kv => (kv.1, insSortBy lexLe kv.2))

/-- The key=value pieces emitted by url.Values.Encode, keys sorted. -/
def encodePieces (m : UrlValues) : List (List Nat) :=
  (insSortBy lexLe (m.map (·.1))).flatMap
    (fun k => (valuesGetD m k).map
      (fun w => queryEscape k ++ [61] ++ queryEscape w))

/-- url.Values.Encode: escaped key=value pairs joined with ampersands,
keys in sorted order. -/
def valuesEncode (m : UrlValues) : List Nat :=
  List.intercalate [38] (encodePieces m)

/-- strings.Replace(s, "+", "%20", -1) applied to an encoded query. -/
def replacePlus (s : List Nat) : List Nat :=
  s.flatMap (fun c => if c == 43 then [37, 50, 48] else [c])

/-! ## Constants (src/signer/constants.go) -/

/-- SigV4 signing algorithm identifier. -/
def SigningAlgorithm : List Nat := asciiBytes "AWS4-HMAC-SHA256"

/-- Authorization header name. -/
def AuthorizationHeader : List Nat := asciiBytes "Authorization"

/-- X-Amz-Algorithm query key. -/
def AmzAlgorithmKey : List Nat := asciiBytes "X-Amz-Algorithm"

/-- X-Amz-Date header and query key. -/
def AmzDateKey : List Nat := asciiBytes "X-Amz-Date"

/-- X-Amz-Credential query key. -/
def AmzCredentialKey : List Nat := asciiBytes "X-Amz-Credential"

/-- X-Amz-SignedHeaders query key. -/
def AmzSignedHeadersKey : List Nat := asciiBytes "X-Amz-SignedHeaders"

/-- X-Amz-Signature query key. -/
def AmzSignatureKey : List Nat := asciiBytes "X-Amz-Signature"

/-! ## Canonicalization builders (src/signer/builders.go) -/

/-- Decimal digits of a Nat, fuel-structured for kernel evaluation. -/
def natToDecAux : Nat → Nat → List Nat
  | 0, _ => []
  | fuel + 1, n => if n < 10 then [48 + n] else natToDecAux fuel (n / 10) ++ [48 + n % 10]

/-- strconv.FormatInt base 10 for the nonnegative lengths the signer
formats (content length is only formatted when positive). -/
def natToDec (n : Nat) : List Nat := natToDecAux (n + 1) n

/-- BuildCredentialScope: date/region/service/aws4_request. -/
def BuildCredentialScope (t : GoTime) (region service : List Nat) : List Nat :=
  List.intercalate [47]
    [t.shortTimeFormat, region, service, asciiBytes "aws4_request"]

/-- Canonical-block text for one header value: StripExcessSpaces then
TrimSpace, values comma-joined. -/
def joinValuesComma (vs : List (List Nat)) : List Nat :=
  List.intercalate [44] (vs.map (fun v => trimSpace (StripExcessSpaces v)))

/-- The header-scan step of BuildCanonicalHeaders: skip names rejected by
the rule or equal-fold to content-length, merge values under the
lower-cased name, collect new names. -/
def canonicalScanStep (rule : Rule) (acc : List (List Nat) × HttpHeader)
    (kv : List Nat × List (List Nat)) : List (List Nat) × HttpHeader :=
  if ¬ (Rule.IsValid rule kv.1 = true) then acc
  else if equalFold kv.1 (asciiBytes "content-length") = true then acc
  else
    let lowerKey := toLowerAscii kv.1
    if assocHas acc.2 lowerKey then
      (acc.1, acc.2.map (fun e => if e.1 = lowerKey then (e.1, e.2 ++ kv.2) else e))
    else (acc.1 ++ [lowerKey], acc.2 ++ [(lowerKey, kv.2)])

/-- BuildCanonicalHeaders: seed with host (and content-length when the
length is positive), scan the caller headers, sort names, and emit the
signed-header map, the semicolon-joined name list, and the canonical
header block. -/
def BuildCanonicalHeaders (host : List Nat) (rule : Rule)
    (header : HttpHeader) (contentLength : Int) :
    HttpHeader × List Nat × List Nat :=
  let signed0 : HttpHeader := [(asciiBytes "host", [host])]
  let headers0 : List (List Nat) := [asciiBytes "host"]
  let seed :=
    if 0 < contentLength then
      (headers0 ++ [asciiBytes "content-length"],
       signed0 ++ [(asciiBytes "content-length", [natToDec contentLength.toNat])])
    else (headers0, signed0)
  let scanned := header.foldl (canonicalScanStep rule) seed
  let sorted := insSortBy lexLe scanned.1
  let signedHeadersStr := List.intercalate [59] sorted
  let block := sorted.flatMap (fun h =>
    if h = asciiBytes "host" then
      h ++ [58] ++ StripExcessSpaces host ++ [10]
    else
      h ++ [58] ++ joinValuesComma (valuesGetD scanned.2 h) ++ [10])
  (scanned.2, signedHeadersStr, block)

/-- BuildCanonicalString: newline join of method, URI, query, canonical
header block, signed header names, payload hash. -/
def BuildCanonicalString (method uri query signedHeaders canonicalHeaders
    payloadHash : List Nat) : List Nat :=
  List.intercalate [10]
    [method, uri, query, canonicalHeaders, signedHeaders, payloadHash]

/-- BuildStringToSign: newline join of algorithm, timestamp, scope and the
hex SHA-256 of the canonical request. -/
def BuildStringToSign (algorithm timestamp credentialScope
    canonicalRequest : List Nat) : List Nat :=
  List.intercalate [10]
    [algorithm, timestamp, credentialScope, bytesToHex (sha256 canonicalRequest)]

/-- BuildSignature: hex HMAC-SHA256 of the string to sign. -/
def BuildSignature (key stringToSign : List Nat) : List Nat :=
  bytesToHex (HMACSHA256 key stringToSign)

/-- BuildAuthorizationHeader: ALGORITHM Credential=..., SignedHeaders=...,
Signature=... -/
def BuildAuthorizationHeader (credentialStr signedHeadersStr
    signature : List Nat) : List Nat :=
  SigningAlgorithm ++ [32] ++ asciiBytes "Credential=" ++ credentialStr ++
  asciiBytes ", " ++ asciiBytes "SignedHeaders=" ++ signedHeadersStr ++
  asciiBytes ", " ++ asciiBytes "Signature=" ++ signature

/-- The two header names lower-cased during presign hoisting. -/
def lowerCaseHeadersMap : List (List Nat × List Nat) :=
  [(asciiBytes "X-Amz-Expected-Bucket-Owner",
    asciiBytes "x-amz-expected-bucket-owner"),
   (asciiBytes "X-Amz-Request-Payer", asciiBytes "x-amz-request-payer")]

/-- The key under which a header is hoisted: the lower-cased form for the
two compatibility names, the header name itself otherwise. -/
def mappedHoistKey (k : List Nat) : List Nat :=
  match assocFind lowerCaseHeadersMap k with
  | some newKey => newKey
  | none => k

/-- BuildQuery: partition headers into hoistable query values and the
remaining unsigned headers, applying the lower-case mapping first. -/
def BuildQuery (rule : Rule) (header : HttpHeader) : UrlValues × HttpHeader :=
  header.foldl
    (fun (acc : UrlValues × HttpHeader) kv =>
      let k := mappedHoistKey kv.1
      if Rule.IsValid rule k then (assocSet acc.1 k kv.2, acc.2)
      else (acc.1, assocSet acc.2 k kv.2))
    ([], [])

/-- textproto token bytes accepted by CanonicalMIMEHeaderKey. -/
def isTokenChar (c : Nat) : Bool :=
  (48 ≤ c && c ≤ 57) || (65 ≤ c && c ≤ 90) || (97 ≤ c && c ≤ 122) ||
  [33, 35, 36, 37, 38, 39, 42, 43, 45, 46, 94, 95, 96, 124, 126].contains c

/-- Canonical MIME casing: upper-case at the start and after dashes,
lower-case elsewhere. -/
def canonicalMIMEAux : Bool → List Nat → List Nat
  | _, [] => []
  | up, c :: rest =>
      let c' := if up then (if 97 ≤ c ∧ c ≤ 122 then c - 32 else c)
                else (if 65 ≤ c ∧ c ≤ 90 then c + 32 else c)
      c' :: canonicalMIMEAux (c == 45) rest

/-- CanonicalizeHeaderKey, modelling textproto.CanonicalMIMEHeaderKey:
keys containing non-token bytes are returned unchanged. -/
def CanonicalizeHeaderKey (k : List Nat) : List Nat :=
  if k.all isTokenChar then canonicalMIMEAux true k else k

/-! ## Signer orchestration (src/signer/signer.go, config.go) -/

/-- Config for SigV4 signing (src/signer/config.go plus the thread-safety
and hoisting flags of the unnamed config file). -/
structure Config where
  region : List Nat
  accessKeyID : List Nat
  secretAccessKey : List Nat
  service : List Nat
  threadSafety : Bool
  disableHeaderHoisting : Bool
deriving Repr, DecidableEq

/-- The per-call signing parameters of struct httpSigner (the request and
the key cache are threaded separately since Go mutates them through
pointers). -/
structure HttpSignerParams where
  serviceName : List Nat
  region : List Nat
  time : GoTime
  accessKeyID : List Nat
  secretAccessKey : List Nat
  isPreSign : Bool
  payloadHash : List Nat
  disableHeaderHoisting : Bool
deriving Repr, DecidableEq

/-- setRequiredSigningFields: presigning stamps algorithm and date into
the query; header signing stamps X-Amz-Date into the headers. -/
def setRequiredSigningFields (s : HttpSignerParams) (headers : HttpHeader)
    (query : UrlValues) : HttpHeader × UrlValues :=
  let amzDate := s.time.timeFormat
  if s.isPreSign then
    (headers, valuesSet (valuesSet query AmzAlgorithmKey SigningAlgorithm)
      AmzDateKey amzDate)
  else (assocSet headers AmzDateKey [amzDate], query)

/-- httpSigner.build for SignHTTP: stamps the date header, sorts query
values, sanitizes the host, derives or reuses the key, writes the
Authorization header and the re-encoded query back onto the request. -/
def build (s : HttpSignerParams) (req0 : HttpRequest) (cache : DKCache) :
    HttpRequest × DKCache :=
  let query0 := parseQuery req0.url.rawQuery
  let hq := setRequiredSigningFields s req0.header query0
  let headers1 := hq.1
  let query2 := sortEachValues hq.2
  let req1 := SanitizeHostForHeader { req0 with header := headers1 }
  let credentialScope := BuildCredentialScope s.time s.region s.serviceName
  let credentialStr := s.accessKeyID ++ [47] ++ credentialScope
  let host := if req1.host.length > 0 then req1.host else req1.url.host
  let bch := BuildCanonicalHeaders host IgnoredHeaders headers1 req1.contentLength
  let signedHeadersStr := bch.2.1
  let canonicalHeaderStr := bch.2.2
  let rawQuery := replacePlus (valuesEncode query2)
  let canonicalURI := GetURIPath req1.url
  let canonicalString := BuildCanonicalString req1.method canonicalURI rawQuery
    signedHeadersStr canonicalHeaderStr s.payloadHash
  let strToSign := BuildStringToSign SigningAlgorithm s.time.timeFormat
    credentialScope canonicalString
  let kc := SigningKeyDeriver.DeriveKey cache s.accessKeyID s.secretAccessKey
    s.serviceName s.region s.time
  let signature := BuildSignature kc.1 strToSign
  let authHeader := BuildAuthorizationHeader credentialStr signedHeadersStr
    signature
  let headers2 := assocSet headers1 AuthorizationHeader [authHeader]
  ({ req1 with header := headers2, url := { req1.url with rawQuery := rawQuery } },
   kc.2)

/-- httpSigner.buildPresign for PresignHTTP: algorithm, date, credential,
signed headers go into the query; hoistable headers are moved into the
query unless disabled; the signature is appended as the final query
fragment.  Returns the mutated (cloned) request, the signed headers, and
the cache. -/
def buildPresign (s : HttpSignerParams) (req0 : HttpRequest)
    (cache : DKCache) : HttpRequest × HttpHeader × DKCache :=
  let query0 := parseQuery req0.url.rawQuery
  let hq := setRequiredSigningFields s req0.header query0
  let headers1 := hq.1
  let query2 := sortEachValues hq.2
  let req1 := SanitizeHostForHeader { req0 with header := headers1 }
  let credentialScope := BuildCredentialScope s.time s.region s.serviceName
  let credentialStr := s.accessKeyID ++ [47] ++ credentialScope
  let query3 := valuesSet query2 AmzCredentialKey credentialStr
  let hoisted :=
    if ¬ (s.disableHeaderHoisting = true) then
      let bq := BuildQuery AllowedQueryHoisting headers1
      (bq.1.foldl (fun q kv => assocSet q kv.1 kv.2) query3, bq.2)
    else (query3, headers1)
  let query4 := hoisted.1
  let unsignedHeaders := hoisted.2
  let host := if req1.host.length > 0 then req1.host else req1.url.host
  let bch := BuildCanonicalHeaders host IgnoredHeaders unsignedHeaders
    req1.contentLength
  let signedHeadersStr := bch.2.1
  let canonicalHeaderStr := bch.2.2
  let query5 := valuesSet query4 AmzSignedHeadersKey signedHeadersStr
  let rawQuery1 := replacePlus (valuesEncode query5)
  let canonicalURI := GetURIPath req1.url
  let canonicalString := BuildCanonicalString req1.method canonicalURI rawQuery1
    signedHeadersStr canonicalHeaderStr s.payloadHash
  let strToSign := BuildStringToSign SigningAlgorithm s.time.timeFormat
    credentialScope canonicalString
  let kc := SigningKeyDeriver.DeriveKey cache s.accessKeyID s.secretAccessKey
    s.serviceName s.region s.time
  let signature := BuildSignature kc.1 strToSign
  let rawQuery2 := rawQuery1 ++ [38] ++ AmzSignatureKey ++ [61] ++ signature
  ({ req1 with url := { req1.url with rawQuery := rawQuery2 } }, bch.1, kc.2)

/-- The query map, signed-header string, and signature that buildPresign
assembles, replayed as a standalone value so that theorems can name the
parts of the presigned query (same let chain as buildPresign). -/
def presignPipeline (s : HttpSignerParams) (req0 : HttpRequest)
    (cache : DKCache) : UrlValues × List Nat × List Nat :=
  let query0 := parseQuery req0.url.rawQuery
  let hq := setRequiredSigningFields s req0.header query0
  let headers1 := hq.1
  let query2 := sortEachValues hq.2
  let req1 := SanitizeHostForHeader { req0 with header := headers1 }
  let credentialScope := BuildCredentialScope s.time s.region s.serviceName
  let credentialStr := s.accessKeyID ++ [47] ++ credentialScope
  let query3 := valuesSet query2 AmzCredentialKey credentialStr
  let hoisted :=
    if ¬ (s.disableHeaderHoisting = true) then
      let bq := BuildQuery AllowedQueryHoisting headers1
      (bq.1.foldl (fun q kv => assocSet q kv.1 kv.2) query3, bq.2)
    else (query3, headers1)
  let query4 := hoisted.1
  let unsignedHeaders := hoisted.2
  let host := if req1.host.length > 0 then req1.host else req1.url.host
  let bch := BuildCanonicalHeaders host IgnoredHeaders unsignedHeaders
    req1.contentLength
  let signedHeadersStr := bch.2.1
  let canonicalHeaderStr := bch.2.2
  let query5 := valuesSet query4 AmzSignedHeadersKey signedHeadersStr
  let rawQuery1 := replacePlus (valuesEncode query5)
  let canonicalURI := GetURIPath req1.url
  let canonicalString := BuildCanonicalString req1.method canonicalURI rawQuery1
    signedHeadersStr canonicalHeaderStr s.payloadHash
  let strToSign := BuildStringToSign SigningAlgorithm s.time.timeFormat
    credentialScope canonicalString
  let kc := SigningKeyDeriver.DeriveKey cache s.accessKeyID s.secretAccessKey
    s.serviceName s.region s.time
  let signature := BuildSignature kc.1 strToSign
  (query5, signedHeadersStr, signature)

/-- The httpSigner parameter record that SignHTTP and PresignHTTP build
from the Signer config and call arguments. -/
def mkSignerParams (cfg : Config) (payloadHash : List Nat) (t : GoTime)
    (isPre : Bool) : HttpSignerParams :=
  { serviceName := cfg.service, region := cfg.region, time := t,
    accessKeyID := cfg.accessKeyID, secretAccessKey := cfg.secretAccessKey,
    isPreSign := isPre, payloadHash := payloadHash,
    disableHeaderHoisting := cfg.disableHeaderHoisting }

/-- Signer.SignHTTP.  The Go method mutates the request through a pointer
and returns only an error; the embedding returns the error option, the
request as seen by the caller afterwards, and the threaded cache.  An
empty payload hash is rejected before anything is touched. -/
def SignHTTP (cfg : Config) (cache : DKCache) (req : HttpRequest)
    (payloadHash : List Nat) (t : GoTime) :
    Option (List Nat) × HttpRequest × DKCache :=
  if payloadHash = [] then
    (some (asciiBytes "payload hash is required"), req, cache)
  else
    let built := build (mkSignerParams cfg payloadHash t false) req cache
    (none, built.1, built.2)

/-- Restricted model of url.URL.String() for the absolute URLs the signer
produces: scheme, authority or opaque part, escaped path, raw query. -/
def URLV.toString (u : URLV) : List Nat :=
  (if u.scheme ≠ [] then u.scheme ++ [58] else []) ++
  (if u.opaqueStr ≠ [] then u.opaqueStr
   else (if u.host ≠ [] then asciiBytes "//" ++ u.host else []) ++ u.escapedPath) ++
  (if u.rawQuery ≠ [] then [63] ++ u.rawQuery else [])

/-- Canonicalize the returned signed-header keys (the result loop of
PresignHTTP). -/
def canonicalizeResultHeaders (h : HttpHeader) : HttpHeader :=
  h.foldl
    (fun acc kv =>
      let key := CanonicalizeHeaderKey kv.1
      if assocHas acc key then
        acc.map (fun e => if e.1 = key then (e.1, e.2 ++ kv.2) else e)
      else acc ++ [(key, kv.2)])
    []

/-- Signer.PresignHTTP.  The source clones the request and mutates only
the clone, so the caller-visible request component of the result is the
original request; the returned URL string and header set come from the
clone. -/
def PresignHTTP (cfg : Config) (cache : DKCache) (req : HttpRequest)
    (payloadHash : List Nat) (t : GoTime) :
    Except (List Nat) (List Nat × HttpHeader) × HttpRequest × DKCache :=
  if payloadHash = [] then
    (.error (asciiBytes "payload hash is required"), req, cache)
  else
    let clonedReq := req
    let bp := buildPresign (mkSignerParams cfg payloadHash t true) clonedReq cache
    let resultHeaders := canonicalizeResultHeaders bp.2.1
    (.ok (URLV.toString bp.1.url, resultHeaders), req, bp.2.2)

/-! ## Shared concrete fixtures for witnesses and counterexamples -/

/-- Concrete config: region us-east-1, keys AKID/SECRET, service s3
(the repository's own test fixture). -/
def wCfg : Config :=
  ⟨asciiBytes "us-east-1", asciiBytes "AKID", asciiBytes "SECRET",
   asciiBytes "s3", false, false⟩

/-- Concrete request: GET https://example.com/bucket/key. -/
def wReq : HttpRequest :=
  ⟨asciiBytes "GET",
   ⟨asciiBytes "https", [], asciiBytes "example.com", asciiBytes "/bucket/key", []⟩,
   [], [], 0⟩

/-- Unix epoch zero as a civil UTC time. -/
def wEpoch : GoTime := ⟨1970, 1, 1, 0, 0, 0⟩

/-! ## Basic length lemmas -/

/-- SHA-256 always yields 32 bytes. -/
theorem sha256_length (msg : List Nat) : (sha256 msg).length = 32 := by
  simp [sha256, wordBE4]

/-- HMAC-SHA256 always yields 32 bytes. -/
theorem hmacsha256_length (key data : List Nat) :
    (HMACSHA256 key data).length = 32 := by
  simp only [HMACSHA256]
  exact sha256_length _

/-! ## C4 -/

/-- C4: SignHTTP and PresignHTTP reject an empty payload hash with the
usage error, and on this failure path the request (every field) and the
key cache are returned completely untouched. -/
theorem signHTTP_presignHTTP_empty_hash_rejected :
    ∀ (cfg : Config) (cache : DKCache) (req : HttpRequest) (t : GoTime),
      SignHTTP cfg cache req [] t =
        (some (asciiBytes "payload hash is required"), req, cache) ∧
      PresignHTTP cfg cache req [] t =
        (Except.error (asciiBytes "payload hash is required"), req, cache) := by
  intro cfg cache req t
  exact ⟨rfl, rfl⟩

/-! ## C10 -/

/-- C10: with any non-empty payload hash both signing protocols succeed on
every request: SignHTTP reports no error and PresignHTTP returns an ok
result; the empty-hash check is the only failure path at signing time. -/
theorem signHTTP_presignHTTP_total_on_nonempty_hash :
    ∀ (cfg : Config) (cache : DKCache) (req : HttpRequest)
      (payloadHash : List Nat) (t : GoTime), payloadHash ≠ [] →
      (SignHTTP cfg cache req payloadHash t).1 = none ∧
      ∃ r, (PresignHTTP cfg cache req payloadHash t).1 = Except.ok r := by
  intro cfg cache req payloadHash t h
  constructor
  · simp [SignHTTP, h]
  · simp only [PresignHTTP, if_neg h]
    exact ⟨_, rfl⟩

/-- C10 witness at the concrete fixture request. -/
theorem signHTTP_presignHTTP_total_witness :
    asciiBytes "x" ≠ [] ∧
    ((SignHTTP wCfg [] wReq (asciiBytes "x") wEpoch).1 = none ∧
     ∃ r, (PresignHTTP wCfg [] wReq (asciiBytes "x") wEpoch).1 = Except.ok r) :=
  ⟨by decide,
   signHTTP_presignHTTP_total_on_nonempty_hash wCfg [] wReq (asciiBytes "x")
     wEpoch (by decide)⟩

/-! ## C5 -/

/-- C5: PresignHTTP never mutates the caller's original request: for every
request and non-empty payload hash the caller-visible request after the
call is the original one, in particular its URL, header map, and host are
unchanged (the source clones the request and mutates only the clone). -/
theorem presignHTTP_preserves_original_request :
    ∀ (cfg : Config) (cache : DKCache) (req : HttpRequest)
      (payloadHash : List Nat) (t : GoTime), payloadHash ≠ [] →
      (PresignHTTP cfg cache req payloadHash t).2.1 = req ∧
      (PresignHTTP cfg cache req payloadHash t).2.1.url = req.url ∧
      (PresignHTTP cfg cache req payloadHash t).2.1.header = req.header ∧
      (PresignHTTP cfg cache req payloadHash t).2.1.host = req.host := by
  intro cfg cache req payloadHash t h
  simp [PresignHTTP, h]

/-- C5 witness at the concrete fixture request. -/
theorem presignHTTP_preserves_original_request_witness :
    asciiBytes "x" ≠ [] ∧
    ((PresignHTTP wCfg [] wReq (asciiBytes "x") wEpoch).2.1 = wReq ∧
     (PresignHTTP wCfg [] wReq (asciiBytes "x") wEpoch).2.1.url = wReq.url ∧
     (PresignHTTP wCfg [] wReq (asciiBytes "x") wEpoch).2.1.header = wReq.header ∧
     (PresignHTTP wCfg [] wReq (asciiBytes "x") wEpoch).2.1.host = wReq.host) :=
  ⟨by decide,
   presignHTTP_preserves_original_request wCfg [] wReq (asciiBytes "x") wEpoch
     (by decide)⟩

/-! ## C9 -/

/-- C9: for non-opaque URLs GetURIPath returns the stored escaped path
verbatim (no additional percent-encoding), an empty path becomes the root
slash, opaque URLs are recovered by stripping the query suffix and scheme
separator, and the three documented examples hold. -/
theorem getURIPath_spec :
    (∀ u : URLV, u.opaqueStr = [] →
      GetURIPath u = (if u.escapedPath = [] then asciiBytes "/" else u.escapedPath)) ∧
    GetURIPath ⟨asciiBytes "https", [], asciiBytes "example.com", [], []⟩ =
      asciiBytes "/" ∧
    GetURIPath ⟨asciiBytes "https", [], asciiBytes "example.com",
      asciiBytes "/", []⟩ = asciiBytes "/" ∧
    GetURIPath ⟨asciiBytes "https", [], asciiBytes "example.com",
      asciiBytes "/bucket/key", asciiBytes "foo=bar"⟩ = asciiBytes "/bucket/key" ∧
    GetURIPath ⟨asciiBytes "https", asciiBytes "//example.com/bucket/key?foo=bar",
      [], [], []⟩ = asciiBytes "/bucket/key" := by
  refine ⟨?_, by decide, by decide, by decide, by decide⟩
  intro u h
  by_cases hep : u.escapedPath = [] <;>
    simp [GetURIPath, h, hep]

/-- C9 witness: the general non-opaque clause applied at the parsed form
of https://example.com/bucket/key?foo=bar. -/
theorem getURIPath_spec_witness :
    (URLV.mk (asciiBytes "https") [] (asciiBytes "example.com")
      (asciiBytes "/bucket/key") (asciiBytes "foo=bar")).opaqueStr = [] ∧
    GetURIPath (URLV.mk (asciiBytes "https") [] (asciiBytes "example.com")
      (asciiBytes "/bucket/key") (asciiBytes "foo=bar")) =
      (if (URLV.mk (asciiBytes "https") [] (asciiBytes "example.com")
        (asciiBytes "/bucket/key") (asciiBytes "foo=bar")).escapedPath = []
       then asciiBytes "/"
       else (URLV.mk (asciiBytes "https") [] (asciiBytes "example.com")
        (asciiBytes "/bucket/key") (asciiBytes "foo=bar")).escapedPath) :=
  ⟨by decide, getURIPath_spec.1 _ (by decide)⟩

/-! ## C2 -/

/-- Lower-casing ASCII is idempotent. -/
theorem toLowerAscii_idem (s : List Nat) :
    toLowerAscii (toLowerAscii s) = toLowerAscii s := by
  unfold toLowerAscii
  rw [List.map_map]
  apply List.map_congr_left
  intro c _
  simp only [Function.comp]
  by_cases h : 65 ≤ c ∧ c ≤ 90
  · rw [if_pos h, if_neg (by omega)]
  · rw [if_neg h, if_neg h]

/-- C2 counterexample: the IgnoredHeaders policy distinguishes two casing
variants of the same header name, so rule matching is not case-insensitive
for every rule of the engine (map-membership rules are exact lookups). -/
theorem headerRules_case_sensitivity_counterexample :
    toLowerAscii (asciiBytes "Authorization") =
      toLowerAscii (asciiBytes "authorization") ∧
    Rule.IsValid IgnoredHeaders (asciiBytes "Authorization") = false ∧
    Rule.IsValid IgnoredHeaders (asciiBytes "authorization") = true ∧
    Rule.IsValid AllowedQueryHoisting (asciiBytes "X-Amz-Acl") = false ∧
    Rule.IsValid AllowedQueryHoisting (asciiBytes "x-amz-acl") = true := by
  decide

/-- C2 amended: prefix-pattern rules are case-insensitive in the header
name (they compare lower-cased candidate against lower-cased pattern, so
any two casing variants match identically, and lower-casing the patterns
themselves changes nothing); exact-set map rules, and hence the composed
policies, are case-sensitive lookups on the canonically-cased name. -/
theorem patterns_rule_case_insensitive :
    (∀ (ps : List (List Nat)) (v w : List Nat),
      toLowerAscii v = toLowerAscii w →
      Rule.IsValid (.patterns ps) v = Rule.IsValid (.patterns ps) w) ∧
    (∀ (ps : List (List Nat)) (v : List Nat),
      Rule.IsValid (.patterns ps) v =
        Rule.IsValid (.patterns (ps.map toLowerAscii)) v) := by
  constructor
  · intro ps v w h
    show (ps.any fun p => (toLowerAscii p).isPrefixOf (toLowerAscii v)) =
      (ps.any fun p => (toLowerAscii p).isPrefixOf (toLowerAscii w))
    rw [h]
  · intro ps v
    show (ps.any fun p => (toLowerAscii p).isPrefixOf (toLowerAscii v)) =
      ((ps.map toLowerAscii).any fun p => (toLowerAscii p).isPrefixOf (toLowerAscii v))
    rw [List.any_map]
    congr 1
    funext p
    simp only [Function.comp, toLowerAscii_idem]

/-- C2 amended witness: the X-Amz- hoisting pattern matches two casing
variants of the same name identically. -/
theorem patterns_rule_case_insensitive_witness :
    toLowerAscii (asciiBytes "x-amz-date") = toLowerAscii (asciiBytes "X-AMZ-DATE") ∧
    Rule.IsValid (.patterns [asciiBytes "X-Amz-"]) (asciiBytes "x-amz-date") =
      Rule.IsValid (.patterns [asciiBytes "X-Amz-"]) (asciiBytes "X-AMZ-DATE") :=
  ⟨by decide,
   patterns_rule_case_insensitive.1 [asciiBytes "X-Amz-"] (asciiBytes "x-amz-date")
     (asciiBytes "X-AMZ-DATE") (by decide)⟩

/-! ## Association list lemmas -/

/-- assocFind over cons. -/
theorem assocFind_cons (kv : List Nat × α) (m : List (List Nat × α)) (k : List Nat) :
    assocFind (kv :: m) k = if kv.1 = k then some kv.2 else assocFind m k := rfl

/-- assocHas agrees with assocFind. -/
theorem assocHas_iff_find {m : List (List Nat × α)} {k : List Nat} :
    assocHas m k = true ↔ (assocFind m k).isSome = true := by
  induction m with
  | nil => simp [assocHas, assocFind]
  | cons kv m ih =>
      by_cases h : kv.1 = k <;> simp [assocHas, assocFind, h, ih]

/-- Finding a freshly set key. -/
theorem assocFind_assocSet_self (m : List (List Nat × α)) (k : List Nat) (v : α) :
    assocFind (assocSet m k v) k = some v := by
  unfold assocSet
  by_cases h : assocHas m k = true
  · rw [if_pos h]
    induction m with
    | nil => simp [assocHas] at h
    | cons kv m ih =>
        by_cases hk : kv.1 = k
        · simp [assocFind, hk]
        · simp only [List.map_cons, if_neg hk]
          rw [assocFind_cons]
          rw [if_neg hk]
          exact ih (by simpa [assocHas, hk] using h)
  · rw [if_neg h]
    induction m with
    | nil => simp [assocFind]
    | cons kv m ih =>
        by_cases hk : kv.1 = k
        · exact absurd (by simp [assocHas, hk]) h
        · rw [List.cons_append, assocFind_cons, if_neg hk]
          exact ih (by simpa [assocHas, hk] using h)

/-- Replacing the value at one key does not change lookups of another. -/
theorem assocFind_map_replace (m : List (List Nat × α)) (k k' : List Nat)
    (v : α) (h : k ≠ k') :
    assocFind (m.map (fun kv => if kv.1 = k then (kv.1, v) else kv)) k' =
      assocFind m k' := by
  induction m with
  | nil => rfl
  | cons kv m ih =>
      by_cases hk : kv.1 = k
      · simp only [List.map_cons, if_pos hk, assocFind_cons]
        rw [if_neg (by rw [hk]; exact h), if_neg (by rw [hk]; exact h)]
        exact ih
      · simp only [List.map_cons, if_neg hk, assocFind_cons]
        by_cases hk' : kv.1 = k'
        · rw [if_pos hk', if_pos hk']
        · rw [if_neg hk', if_neg hk']
          exact ih

/-- Appending an entry for one key does not change lookups of another. -/
theorem assocFind_append_single_other (m : List (List Nat × α))
    (k k' : List Nat) (v : α) (h : k ≠ k') :
    assocFind (m ++ [(k, v)]) k' = assocFind m k' := by
  induction m with
  | nil => simp [assocFind, h]
  | cons kv m ih =>
      rw [List.cons_append, assocFind_cons, assocFind_cons]
      by_cases hk' : kv.1 = k'
      · rw [if_pos hk', if_pos hk']
      · rw [if_neg hk', if_neg hk']
        exact ih

/-- Finding another key after a set. -/
theorem assocFind_assocSet_other (m : List (List Nat × α)) (k k' : List Nat)
    (v : α) (h : k ≠ k') : assocFind (assocSet m k v) k' = assocFind m k' := by
  unfold assocSet
  by_cases hh : assocHas m k = true
  · rw [if_pos hh]
    exact assocFind_map_replace m k k' v h
  · rw [if_neg hh]
    exact assocFind_append_single_other m k k' v h

/-! ## C3 -/

/-- Same-day is reflexive. -/
theorem isSameDay_refl (t : GoTime) : isSameDay t t = true := by
  simp [isSameDay]

/-- Same-day is symmetric. -/
theorem isSameDay_symm {t1 t2 : GoTime} (h : isSameDay t1 t2 = true) :
    isSameDay t2 t1 = true := by
  simp [isSameDay] at h ⊢
  omega

/-- Same-day is transitive. -/
theorem isSameDay_trans {t1 t2 t3 : GoTime} (h1 : isSameDay t1 t2 = true)
    (h2 : isSameDay t2 t3 = true) : isSameDay t1 t3 = true := by
  simp [isSameDay] at h1 h2 ⊢
  omega

/-- Characterization of a cache hit: the entry stored under the lookup key
must exist, carry the same access key id, and lie on the same calendar
day. -/
theorem cacheGet_iff (c : DKCache) (key accessKeyID : List Nat) (t : GoTime)
    (k : List Nat) :
    cacheGet c key accessKeyID t = some k ↔
      ∃ e, assocFind c key = some e ∧ e.accessKeyID = accessKeyID ∧
        isSameDay t e.date = true ∧ e.key = k := by
  unfold cacheGet
  cases hf : assocFind c key with
  | none => simp
  | some e =>
      by_cases h1 : e.accessKeyID ≠ accessKeyID
      · simp [h1]
      · push_neg at h1
        by_cases h2 : isSameDay t e.date = true
        · simp [h1, h2]
        · simp [h1, h2]

/-- Unfolding equation for the caching key deriver. -/
theorem skd_deriveKey_eq (c : DKCache) (akid sec sv rg : List Nat)
    (t : GoTime) :
    SigningKeyDeriver.DeriveKey c akid sec sv rg t =
      match cacheGet c (lookupKey sv rg) akid t with
      | some key => (key, c)
      | none =>
          (DeriveKey sec sv rg t,
           cacheSet c (lookupKey sv rg) akid t (DeriveKey sec sv rg t)) := rfl

/-- The cache after the key deriver ran holds a valid entry for the call's
parameters. -/
theorem deriveKey_cache_hit_after (c : DKCache)
    (akid sec sv rg : List Nat) (t t' : GoTime) (h : isSameDay t t' = true) :
    cacheGet (SigningKeyDeriver.DeriveKey c akid sec sv rg t).2
      (lookupKey sv rg) akid t' =
      some (SigningKeyDeriver.DeriveKey c akid sec sv rg t).1 := by
  rw [skd_deriveKey_eq]
  cases hg : cacheGet c (lookupKey sv rg) akid t with
  | some k =>
      simp only
      rcases (cacheGet_iff c (lookupKey sv rg) akid t k).mp hg with
        ⟨e, hf, ha, hd, hk⟩
      exact (cacheGet_iff c (lookupKey sv rg) akid t' k).mpr
        ⟨e, hf, ha, isSameDay_trans (isSameDay_symm h) hd, hk⟩
  | none =>
      simp only
      apply (cacheGet_iff _ _ _ _ _).mpr
      refine ⟨⟨akid, t, DeriveKey sec sv rg t⟩, ?_, rfl, isSameDay_symm h, rfl⟩
      exact assocFind_assocSet_self c (lookupKey sv rg) _

/-- The cache after the key deriver ran misses for a different calendar
day. -/
theorem deriveKey_cache_miss_after (c : DKCache)
    (akid sec sv rg : List Nat) (t t' : GoTime) (h : isSameDay t t' = false) :
    cacheGet (SigningKeyDeriver.DeriveKey c akid sec sv rg t).2
      (lookupKey sv rg) akid t' = none := by
  rw [skd_deriveKey_eq]
  cases hg : cacheGet c (lookupKey sv rg) akid t with
  | some k =>
      simp only
      rcases (cacheGet_iff c (lookupKey sv rg) akid t k).mp hg with
        ⟨e, hf, ha, hd, hk⟩
      cases hx : cacheGet c (lookupKey sv rg) akid t' with
      | none => rfl
      | some k' =>
          rcases (cacheGet_iff c (lookupKey sv rg) akid t' k').mp hx with
            ⟨e', hf', _, hd', _⟩
          rw [hf] at hf'
          cases hf'
          have : isSameDay t t' = true :=
            isSameDay_trans hd (isSameDay_symm hd')
          rw [this] at h
          cases h
  | none =>
      simp only
      cases hx : cacheGet (cacheSet c (lookupKey sv rg) akid t
          (DeriveKey sec sv rg t)) (lookupKey sv rg) akid t' with
      | none => rfl
      | some k' =>
          rcases (cacheGet_iff _ _ _ _ _).mp hx with ⟨e', hf', _, hd', _⟩
          rw [show cacheSet c (lookupKey sv rg) akid t (DeriveKey sec sv rg t)
              = assocSet c (lookupKey sv rg)
                ⟨akid, t, DeriveKey sec sv rg t⟩ from rfl] at hf'
          rw [assocFind_assocSet_self] at hf'
          cases hf'
          have : isSameDay t t' = true := isSameDay_symm hd'
          rw [this] at h
          cases h

/-- C3: a cached entry is reused exactly when its stored access key id
matches and its stored date is on the same UTC calendar day (not a sliding
window); a second call on the same day with the same region, service and
access key hits the cache and returns the stored key with the cache
unchanged; a call on a different calendar day misses, derives afresh, and
overwrites the entry. -/
theorem signingKeyDeriver_cache_spec :
    (∀ (c : DKCache) (key accessKeyID : List Nat) (t : GoTime) (k : List Nat),
      cacheGet c key accessKeyID t = some k ↔
        ∃ e, assocFind c key = some e ∧ e.accessKeyID = accessKeyID ∧
          isSameDay t e.date = true ∧ e.key = k) ∧
    (∀ (c : DKCache) (akid sec sv rg : List Nat) (t t' : GoTime),
      isSameDay t t' = true →
      SigningKeyDeriver.DeriveKey
          (SigningKeyDeriver.DeriveKey c akid sec sv rg t).2 akid sec sv rg t' =
        ((SigningKeyDeriver.DeriveKey c akid sec sv rg t).1,
         (SigningKeyDeriver.DeriveKey c akid sec sv rg t).2)) ∧
    (∀ (c : DKCache) (akid sec sv rg : List Nat) (t t' : GoTime),
      isSameDay t t' = false →
      SigningKeyDeriver.DeriveKey
          (SigningKeyDeriver.DeriveKey c akid sec sv rg t).2 akid sec sv rg t' =
        (DeriveKey sec sv rg t',
         cacheSet (SigningKeyDeriver.DeriveKey c akid sec sv rg t).2
           (lookupKey sv rg) akid t' (DeriveKey sec sv rg t'))) := by
  refine ⟨cacheGet_iff, ?_, ?_⟩
  · intro c akid sec sv rg t t' h
    rw [skd_deriveKey_eq, deriveKey_cache_hit_after c akid sec sv rg t t' h]
  · intro c akid sec sv rg t t' h
    rw [skd_deriveKey_eq, deriveKey_cache_miss_after c akid sec sv rg t t' h]

/-- C3 witness: same-day reuse at 12:00 versus 18:00, and a fresh
derivation across midnight with only a two-second wall-clock gap
(23:59:59 versus 00:00:01). -/
theorem signingKeyDeriver_cache_spec_witness :
    isSameDay ⟨2023, 1, 1, 12, 0, 0⟩ ⟨2023, 1, 1, 18, 0, 0⟩ = true ∧
    SigningKeyDeriver.DeriveKey
        (SigningKeyDeriver.DeriveKey [] (asciiBytes "AKID") (asciiBytes "SECRET")
          (asciiBytes "s3") (asciiBytes "us-east-1") ⟨2023, 1, 1, 12, 0, 0⟩).2
        (asciiBytes "AKID") (asciiBytes "SECRET") (asciiBytes "s3")
        (asciiBytes "us-east-1") ⟨2023, 1, 1, 18, 0, 0⟩ =
      ((SigningKeyDeriver.DeriveKey [] (asciiBytes "AKID") (asciiBytes "SECRET")
          (asciiBytes "s3") (asciiBytes "us-east-1") ⟨2023, 1, 1, 12, 0, 0⟩).1,
       (SigningKeyDeriver.DeriveKey [] (asciiBytes "AKID") (asciiBytes "SECRET")
          (asciiBytes "s3") (asciiBytes "us-east-1") ⟨2023, 1, 1, 12, 0, 0⟩).2) ∧
    isSameDay ⟨2023, 1, 1, 23, 59, 59⟩ ⟨2023, 1, 2, 0, 0, 1⟩ = false ∧
    SigningKeyDeriver.DeriveKey
        (SigningKeyDeriver.DeriveKey [] (asciiBytes "AKID") (asciiBytes "SECRET")
          (asciiBytes "s3") (asciiBytes "us-east-1") ⟨2023, 1, 1, 23, 59, 59⟩).2
        (asciiBytes "AKID") (asciiBytes "SECRET") (asciiBytes "s3")
        (asciiBytes "us-east-1") ⟨2023, 1, 2, 0, 0, 1⟩ =
      (DeriveKey (asciiBytes "SECRET") (asciiBytes "s3") (asciiBytes "us-east-1")
        ⟨2023, 1, 2, 0, 0, 1⟩,
       cacheSet (SigningKeyDeriver.DeriveKey [] (asciiBytes "AKID")
          (asciiBytes "SECRET") (asciiBytes "s3") (asciiBytes "us-east-1")
          ⟨2023, 1, 1, 23, 59, 59⟩).2
         (lookupKey (asciiBytes "s3") (asciiBytes "us-east-1"))
         (asciiBytes "AKID") ⟨2023, 1, 2, 0, 0, 1⟩
         (DeriveKey (asciiBytes "SECRET") (asciiBytes "s3")
           (asciiBytes "us-east-1") ⟨2023, 1, 2, 0, 0, 1⟩)) :=
  ⟨by decide,
   signingKeyDeriver_cache_spec.2.1 [] (asciiBytes "AKID") (asciiBytes "SECRET")
     (asciiBytes "s3") (asciiBytes "us-east-1") ⟨2023, 1, 1, 12, 0, 0⟩
     ⟨2023, 1, 1, 18, 0, 0⟩ (by decide),
   by decide,
   signingKeyDeriver_cache_spec.2.2 [] (asciiBytes "AKID") (asciiBytes "SECRET")
     (asciiBytes "s3") (asciiBytes "us-east-1") ⟨2023, 1, 1, 23, 59, 59⟩
     ⟨2023, 1, 2, 0, 0, 1⟩ (by decide)⟩

/-! ## C1 -/

/-- Times on the same calendar day format to the same scope date. -/
theorem shortTimeFormat_eq_of_sameDay {t t' : GoTime}
    (h : isSameDay t t' = true) : t.shortTimeFormat = t'.shortTimeFormat := by
  have hy : t.year = t'.year := by simp [isSameDay] at h; omega
  have hm : t.month = t'.month := by simp [isSameDay] at h; omega
  have hd : t.day = t'.day := by simp [isSameDay] at h; omega
  simp [GoTime.shortTimeFormat, hy, hm, hd]

/-- C1: DeriveKey is exactly the four chained HMAC-SHA256 operations and a
pure function of (secret, service, region, UTC calendar day): it always
returns 32 bytes, it coincides on any two times of the same calendar day,
the access key id does not enter the derived value (the cached deriver on
a fresh cache returns the pure chain whatever the id), and at the
repository's own test vectors changing only the secret, the region, the
service, or the calendar day changes the output. -/
theorem deriveKey_pure_chain_spec :
    (∀ (sec sv rg : List Nat) (t : GoTime),
      DeriveKey sec sv rg t =
        HMACSHA256 (HMACSHA256 (HMACSHA256
          (HMACSHA256 (asciiBytes "AWS4" ++ sec) t.shortTimeFormat) rg) sv)
          (asciiBytes "aws4_request")) ∧
    (∀ (sec sv rg : List Nat) (t : GoTime), (DeriveKey sec sv rg t).length = 32) ∧
    (∀ (sec sv rg : List Nat) (t t' : GoTime), isSameDay t t' = true →
      DeriveKey sec sv rg t = DeriveKey sec sv rg t') ∧
    (∀ (akid sec sv rg : List Nat) (t : GoTime),
      (SigningKeyDeriver.DeriveKey [] akid sec sv rg t).1 = DeriveKey sec sv rg t) ∧
    bytesToHex (DeriveKey (asciiBytes "SECRET") (asciiBytes "s3")
        (asciiBytes "us-east-1") wEpoch) =
      asciiBytes "167a3dcc209954196b95685c7fee9c87b13cd9e613fe4da6f9d04bad506d8eb3" ∧
    bytesToHex (DeriveKey (asciiBytes "SECRET2") (asciiBytes "s3")
        (asciiBytes "us-east-1") wEpoch) =
      asciiBytes "654581c2617ccc192fb12e3971bc5fd589a25d77016c4e7b315bcac31a9de5df" ∧
    bytesToHex (DeriveKey (asciiBytes "SECRET") (asciiBytes "s3")
        (asciiBytes "us-west-2") wEpoch) =
      asciiBytes "68cfcdbb460e703005e5292062316e6a746483f575c03a825e3dedf404d96b18" ∧
    bytesToHex (DeriveKey (asciiBytes "SECRET") (asciiBytes "dynamodb")
        (asciiBytes "us-east-1") wEpoch) =
      asciiBytes "9934a643e4fddfeb56c606c4e5090fb2cce199017d5b23ae721c9c07f333e3d0" ∧
    bytesToHex (DeriveKey (asciiBytes "SECRET") (asciiBytes "s3")
        (asciiBytes "us-east-1") ⟨1970, 1, 2, 0, 0, 0⟩) =
      asciiBytes "9060d6d485e339eb9767fda7c783596a71b0d31571d959d05d63f307f58702d0" ∧
    DeriveKey (asciiBytes "SECRET") (asciiBytes "s3") (asciiBytes "us-east-1")
        wEpoch ≠
      DeriveKey (asciiBytes "SECRET2") (asciiBytes "s3") (asciiBytes "us-east-1")
        wEpoch ∧
    DeriveKey (asciiBytes "SECRET") (asciiBytes "s3") (asciiBytes "us-east-1")
        wEpoch ≠
      DeriveKey (asciiBytes "SECRET") (asciiBytes "s3") (asciiBytes "us-west-2")
        wEpoch ∧
    DeriveKey (asciiBytes "SECRET") (asciiBytes "s3") (asciiBytes "us-east-1")
        wEpoch ≠
      DeriveKey (asciiBytes "SECRET") (asciiBytes "dynamodb")
        (asciiBytes "us-east-1") wEpoch ∧
    DeriveKey (asciiBytes "SECRET") (asciiBytes "s3") (asciiBytes "us-east-1")
        wEpoch ≠
      DeriveKey (asciiBytes "SECRET") (asciiBytes "s3") (asciiBytes "us-east-1")
        ⟨1970, 1, 2, 0, 0, 0⟩ := by
  have h1 : bytesToHex (DeriveKey (asciiBytes "SECRET") (asciiBytes "s3")
      (asciiBytes "us-east-1") wEpoch) =
      asciiBytes "167a3dcc209954196b95685c7fee9c87b13cd9e613fe4da6f9d04bad506d8eb3" := by
    decide
  have h2 : bytesToHex (DeriveKey (asciiBytes "SECRET2") (asciiBytes "s3")
      (asciiBytes "us-east-1") wEpoch) =
      asciiBytes "654581c2617ccc192fb12e3971bc5fd589a25d77016c4e7b315bcac31a9de5df" := by
    decide
  have h3 : bytesToHex (DeriveKey (asciiBytes "SECRET") (asciiBytes "s3")
      (asciiBytes "us-west-2") wEpoch) =
      asciiBytes "68cfcdbb460e703005e5292062316e6a746483f575c03a825e3dedf404d96b18" := by
    decide
  have h4 : bytesToHex (DeriveKey (asciiBytes "SECRET") (asciiBytes "dynamodb")
      (asciiBytes "us-east-1") wEpoch) =
      asciiBytes "9934a643e4fddfeb56c606c4e5090fb2cce199017d5b23ae721c9c07f333e3d0" := by
    decide
  have h5 : bytesToHex (DeriveKey (asciiBytes "SECRET") (asciiBytes "s3")
      (asciiBytes "us-east-1") ⟨1970, 1, 2, 0, 0, 0⟩) =
      asciiBytes "9060d6d485e339eb9767fda7c783596a71b0d31571d959d05d63f307f58702d0" := by
    decide
  refine ⟨fun sec sv rg t => rfl, ?_, ?_, ?_, h1, h2, h3, h4, h5, ?_, ?_, ?_, ?_⟩
  · intro sec sv rg t
    exact hmacsha256_length _ _
  · intro sec sv rg t t' h
    unfold DeriveKey
    rw [shortTimeFormat_eq_of_sameDay h]
  · intro akid sec sv rg t
    rw [skd_deriveKey_eq]
    rfl
  · intro h
    rw [h] at h1
    exact absurd (h1.symm.trans h2) (by decide)
  · intro h
    rw [h] at h1
    exact absurd (h1.symm.trans h3) (by decide)
  · intro h
    rw [h] at h1
    exact absurd (h1.symm.trans h4) (by decide)
  · intro h
    rw [h] at h1
    exact absurd (h1.symm.trans h5) (by decide)

/-- C1 witness: same-day determinism applied at two times of the same UTC
day. -/
theorem deriveKey_pure_chain_spec_witness :
    isSameDay ⟨2023, 12, 1, 1, 2, 3⟩ ⟨2023, 12, 1, 22, 59, 58⟩ = true ∧
    DeriveKey (asciiBytes "SECRET") (asciiBytes "s3") (asciiBytes "us-east-1")
        ⟨2023, 12, 1, 1, 2, 3⟩ =
      DeriveKey (asciiBytes "SECRET") (asciiBytes "s3") (asciiBytes "us-east-1")
        ⟨2023, 12, 1, 22, 59, 58⟩ :=
  ⟨by decide,
   deriveKey_pure_chain_spec.2.2.1 (asciiBytes "SECRET") (asciiBytes "s3")
     (asciiBytes "us-east-1") ⟨2023, 12, 1, 1, 2, 3⟩ ⟨2023, 12, 1, 22, 59, 58⟩
     (by decide)⟩

/-! ## C8 -/

/-- Lookup after updating one key's value in place. -/
theorem assocFind_map_update (m : List (List Nat × α)) (k : List Nat)
    (f : α → α) :
    assocFind (m.map (fun e => if e.1 = k then (e.1, f e.2) else e)) k =
      (assocFind m k).map f := by
  induction m with
  | nil => rfl
  | cons kv m ih =>
      by_cases hk : kv.1 = k
      · simp [assocFind_cons, hk]
      · simp only [List.map_cons, if_neg hk, assocFind_cons, if_neg hk]
        exact ih

/-- Updating one key's value in place keeps the key list. -/
theorem map_fst_map_update (m : List (List Nat × α)) (k : List Nat)
    (f : α → α) :
    (m.map (fun e => if e.1 = k then (e.1, f e.2) else e)).map Prod.fst =
      m.map Prod.fst := by
  rw [List.map_map]
  apply List.map_congr_left
  intro e _
  by_cases hk : e.1 = k <;> simp [hk, Function.comp]

/-- Lookup of another key after merging values into one key. -/
theorem assocFind_map_append_other (m : List (List Nat × List (List Nat)))
    (k k' : List Nat) (vs : List (List Nat)) (h : k ≠ k') :
    assocFind (m.map (fun e => if e.1 = k then (e.1, e.2 ++ vs) else e)) k' =
      assocFind m k' := by
  induction m with
  | nil => rfl
  | cons kv m ih =>
      by_cases hk : kv.1 = k
      · simp only [List.map_cons, if_pos hk, assocFind_cons]
        rw [if_neg (by rw [hk]; exact h), if_neg (by rw [hk]; exact h)]
        exact ih
      · simp only [List.map_cons, if_neg hk, assocFind_cons]
        by_cases hk' : kv.1 = k'
        · rw [if_pos hk', if_pos hk']
        · rw [if_neg hk', if_neg hk']
          exact ih

/-- Lookup of the merged key after merging values into it. -/
theorem assocFind_map_append_self (m : List (List Nat × List (List Nat)))
    (k : List Nat) (vs : List (List Nat)) :
    assocFind (m.map (fun e => if e.1 = k then (e.1, e.2 ++ vs) else e)) k =
      (assocFind m k).map (· ++ vs) := by
  induction m with
  | nil => rfl
  | cons kv m ih =>
      by_cases hk : kv.1 = k
      · simp [assocFind_cons, hk]
      · simp only [List.map_cons, if_neg hk, assocFind_cons, if_neg hk]
        exact ih

/-- Merging values into one key keeps the key list. -/
theorem map_fst_map_append (m : List (List Nat × List (List Nat)))
    (k : List Nat) (vs : List (List Nat)) :
    (m.map (fun e => if e.1 = k then (e.1, e.2 ++ vs) else e)).map Prod.fst =
      m.map Prod.fst := by
  rw [List.map_map]
  apply List.map_congr_left
  intro e _
  by_cases hk : e.1 = k <;> simp [hk, Function.comp]

/-- The lowercase content-length literal is a fixed point of lower-casing. -/
theorem toLowerAscii_contentLength :
    toLowerAscii (asciiBytes "content-length") = asciiBytes "content-length" := by
  decide

/-- Scan-step equation: names rejected by the rule are skipped. -/
theorem canonicalScanStep_skip_invalid {rule : Rule}
    {acc : List (List Nat) × HttpHeader} {kv : List Nat × List (List Nat)}
    (hr : Rule.IsValid rule kv.1 = false) :
    canonicalScanStep rule acc kv = acc := by
  unfold canonicalScanStep
  rw [if_pos (by simp [hr])]

/-- Scan-step equation: any casing of content-length is skipped. -/
theorem canonicalScanStep_skip_cl {rule : Rule}
    {acc : List (List Nat) × HttpHeader} {kv : List Nat × List (List Nat)}
    (hr : Rule.IsValid rule kv.1 = true)
    (hcl : equalFold kv.1 (asciiBytes "content-length") = true) :
    canonicalScanStep rule acc kv = acc := by
  unfold canonicalScanStep
  rw [if_neg (by simp [hr]), if_pos hcl]

/-- Scan-step equation: a retained name whose lower-casing is present
merges its values. -/
theorem canonicalScanStep_merge {rule : Rule}
    {acc : List (List Nat) × HttpHeader} {kv : List Nat × List (List Nat)}
    (hr : Rule.IsValid rule kv.1 = true)
    (hcl : equalFold kv.1 (asciiBytes "content-length") = false)
    (hh : assocHas acc.2 (toLowerAscii kv.1) = true) :
    canonicalScanStep rule acc kv =
      (acc.1, acc.2.map (fun e =>
        if e.1 = toLowerAscii kv.1 then (e.1, e.2 ++ kv.2) else e)) := by
  unfold canonicalScanStep
  rw [if_neg (by simp [hr]), if_neg (by simp [hcl])]
  simp only [hh, if_true]

/-- Scan-step equation: a retained name whose lower-casing is new appends
a fresh entry. -/
theorem canonicalScanStep_append {rule : Rule}
    {acc : List (List Nat) × HttpHeader} {kv : List Nat × List (List Nat)}
    (hr : Rule.IsValid rule kv.1 = true)
    (hcl : equalFold kv.1 (asciiBytes "content-length") = false)
    (hh : assocHas acc.2 (toLowerAscii kv.1) = false) :
    canonicalScanStep rule acc kv =
      (acc.1 ++ [toLowerAscii kv.1], acc.2 ++ [(toLowerAscii kv.1, kv.2)]) := by
  unfold canonicalScanStep
  rw [if_neg (by simp [hr]), if_neg (by simp [hcl])]
  simp only [hh, Bool.false_eq_true, if_false]

/-- A name that is not an equal-fold of content-length lower-cases to
something other than the content-length literal. -/
theorem lower_ne_cl_of_not_fold {k : List Nat}
    (hcl : equalFold k (asciiBytes "content-length") = false) :
    toLowerAscii k ≠ asciiBytes "content-length" := by
  intro hc
  have : equalFold k (asciiBytes "content-length") = true := by
    simp [equalFold, toLowerAscii_contentLength, hc]
  rw [this] at hcl
  cases hcl

/-- One canonical-scan step never touches the content-length entry. -/
theorem canonicalScanStep_find_cl (rule : Rule)
    (acc : List (List Nat) × HttpHeader) (kv : List Nat × List (List Nat)) :
    assocFind (canonicalScanStep rule acc kv).2 (asciiBytes "content-length") =
      assocFind acc.2 (asciiBytes "content-length") := by
  cases hr : Rule.IsValid rule kv.1 with
  | false => rw [canonicalScanStep_skip_invalid hr]
  | true =>
      cases hcl : equalFold kv.1 (asciiBytes "content-length") with
      | true => rw [canonicalScanStep_skip_cl hr hcl]
      | false =>
          have hlk := lower_ne_cl_of_not_fold hcl
          cases hh : assocHas acc.2 (toLowerAscii kv.1) with
          | true =>
              rw [canonicalScanStep_merge hr hcl hh]
              exact assocFind_map_append_other _ _ _ _ hlk
          | false =>
              rw [canonicalScanStep_append hr hcl hh]
              exact assocFind_append_single_other _ _ _ _ hlk

/-- One canonical-scan step keeps the multiset of content-length keys. -/
theorem canonicalScanStep_count_cl (rule : Rule)
    (acc : List (List Nat) × HttpHeader) (kv : List Nat × List (List Nat)) :
    ((canonicalScanStep rule acc kv).2.map Prod.fst).count
        (asciiBytes "content-length") =
      (acc.2.map Prod.fst).count (asciiBytes "content-length") := by
  cases hr : Rule.IsValid rule kv.1 with
  | false => rw [canonicalScanStep_skip_invalid hr]
  | true =>
      cases hcl : equalFold kv.1 (asciiBytes "content-length") with
      | true => rw [canonicalScanStep_skip_cl hr hcl]
      | false =>
          have hlk := lower_ne_cl_of_not_fold hcl
          cases hh : assocHas acc.2 (toLowerAscii kv.1) with
          | true =>
              rw [canonicalScanStep_merge hr hcl hh]
              exact congrArg (List.count (asciiBytes "content-length"))
                (map_fst_map_append acc.2 (toLowerAscii kv.1) kv.2)
          | false =>
              rw [canonicalScanStep_append hr hcl hh]
              rw [List.map_append, List.count_append]
              have : List.count (asciiBytes "content-length")
                  ([(toLowerAscii kv.1, kv.2)].map Prod.fst) = 0 := by
                rw [List.count_eq_zero]
                intro hc
                rcases List.mem_singleton.mp hc with h
                exact hlk h.symm
              rw [this, Nat.add_zero]

/-- One canonical-scan step preserves the host entry head value. -/
theorem canonicalScanStep_find_host (rule : Rule)
    (acc : List (List Nat) × HttpHeader) (kv : List Nat × List (List Nat))
    (h : List Nat) (rest : List (List Nat))
    (hfind : assocFind acc.2 (asciiBytes "host") = some (h :: rest)) :
    ∃ rest', assocFind (canonicalScanStep rule acc kv).2 (asciiBytes "host") =
      some (h :: rest') := by
  cases hr : Rule.IsValid rule kv.1 with
  | false => rw [canonicalScanStep_skip_invalid hr]; exact ⟨rest, hfind⟩
  | true =>
      cases hcl : equalFold kv.1 (asciiBytes "content-length") with
      | true => rw [canonicalScanStep_skip_cl hr hcl]; exact ⟨rest, hfind⟩
      | false =>
          cases hh : assocHas acc.2 (toLowerAscii kv.1) with
          | true =>
              rw [canonicalScanStep_merge hr hcl hh]
              by_cases hlk : toLowerAscii kv.1 = asciiBytes "host"
              · refine ⟨rest ++ kv.2, ?_⟩
                rw [← hlk] at hfind ⊢
                rw [assocFind_map_append_self, hfind]
                rfl
              · exact ⟨rest,
                  by rw [assocFind_map_append_other _ _ _ _ hlk, hfind]⟩
          | false =>
              rw [canonicalScanStep_append hr hcl hh]
              have hlk : toLowerAscii kv.1 ≠ asciiBytes "host" := by
                intro hc
                rw [hc] at hh
                rw [assocHas_iff_find.mpr (by simp [hfind])] at hh
                cases hh
              exact ⟨rest,
                by rw [assocFind_append_single_other _ _ _ _ hlk, hfind]⟩

/-- Fold versions of the three step lemmas. -/
theorem canonicalScan_fold_facts (rule : Rule) (hdr : HttpHeader) :
    ∀ acc : List (List Nat) × HttpHeader,
    assocFind (hdr.foldl (canonicalScanStep rule) acc).2
        (asciiBytes "content-length") =
      assocFind acc.2 (asciiBytes "content-length") ∧
    ((hdr.foldl (canonicalScanStep rule) acc).2.map Prod.fst).count
        (asciiBytes "content-length") =
      (acc.2.map Prod.fst).count (asciiBytes "content-length") ∧
    (∀ h rest, assocFind acc.2 (asciiBytes "host") = some (h :: rest) →
      ∃ rest', assocFind (hdr.foldl (canonicalScanStep rule) acc).2
        (asciiBytes "host") = some (h :: rest')) := by
  induction hdr with
  | nil => intro acc; exact ⟨rfl, rfl, fun h rest hf => ⟨rest, hf⟩⟩
  | cons kv hdr ih =>
      intro acc
      simp only [List.foldl_cons]
      refine ⟨?_, ?_, ?_⟩
      · rw [(ih _).1, canonicalScanStep_find_cl]
      · rw [(ih _).2.1, canonicalScanStep_count_cl]
      · intro h rest hf
        rcases canonicalScanStep_find_host rule acc kv h rest hf with ⟨r', hr'⟩
        exact (ih _).2.2 h r' hr'

/-- Unfolding equation for the signed map of BuildCanonicalHeaders. -/
theorem buildCanonicalHeaders_fst_eq (host : List Nat) (rule : Rule)
    (header : HttpHeader) (cl : Int) :
    (BuildCanonicalHeaders host rule header cl).1 =
      (header.foldl (canonicalScanStep rule)
        (if 0 < cl then
          ([asciiBytes "host", asciiBytes "content-length"],
           [(asciiBytes "host", [host]),
            (asciiBytes "content-length", [natToDec cl.toNat])])
         else ([asciiBytes "host"], [(asciiBytes "host", [host])]))).2 := by
  simp only [BuildCanonicalHeaders]
  by_cases hcl : (0 : Int) < cl <;> simp [hcl]

/-- C8: BuildCanonicalHeaders always carries the host header whose first
value is the passed host; it synthesizes a content-length entry exactly
when the content length is positive, and the content-length key occurs in
the signed map exactly that often however the caller spelled their own
Content-Length header (every casing is skipped by the scan); the host the
signer passes is the explicit override when present, else the URL host
(GetHost). -/
theorem buildCanonicalHeaders_host_content_length_spec :
    (∀ (host : List Nat) (rule : Rule) (header : HttpHeader)
       (contentLength : Int),
      ∃ rest, assocFind (BuildCanonicalHeaders host rule header contentLength).1
        (asciiBytes "host") = some (host :: rest)) ∧
    (∀ (host : List Nat) (rule : Rule) (header : HttpHeader)
       (contentLength : Int),
      assocFind (BuildCanonicalHeaders host rule header contentLength).1
          (asciiBytes "content-length") =
        (if 0 < contentLength then some [natToDec contentLength.toNat]
         else none)) ∧
    (∀ (host : List Nat) (rule : Rule) (header : HttpHeader)
       (contentLength : Int),
      (((BuildCanonicalHeaders host rule header contentLength).1).map
          Prod.fst).count (asciiBytes "content-length") =
        (if 0 < contentLength then 1 else 0)) ∧
    (∀ r : HttpRequest,
      (if r.host.length > 0 then r.host else r.url.host) = GetHost r) := by
  have host_ne_cl : asciiBytes "host" ≠ asciiBytes "content-length" := by decide
  refine ⟨?_, ?_, ?_, ?_⟩
  · intro host rule header contentLength
    rw [buildCanonicalHeaders_fst_eq]
    by_cases hcl : (0 : Int) < contentLength
    · rw [if_pos hcl]
      exact (canonicalScan_fold_facts rule header _).2.2 host []
        (by rw [assocFind_cons, if_pos rfl])
    · rw [if_neg hcl]
      exact (canonicalScan_fold_facts rule header _).2.2 host []
        (by rw [assocFind_cons, if_pos rfl])
  · intro host rule header contentLength
    rw [buildCanonicalHeaders_fst_eq]
    by_cases hcl : (0 : Int) < contentLength
    · rw [if_pos hcl, if_pos hcl, (canonicalScan_fold_facts rule header _).1]
      rw [assocFind_cons, if_neg host_ne_cl, assocFind_cons, if_pos rfl]
    · rw [if_neg hcl, if_neg hcl, (canonicalScan_fold_facts rule header _).1]
      rw [assocFind_cons, if_neg host_ne_cl]
      rfl
  · intro host rule header contentLength
    rw [buildCanonicalHeaders_fst_eq]
    by_cases hcl : (0 : Int) < contentLength
    · rw [if_pos hcl, if_pos hcl, (canonicalScan_fold_facts rule header _).2.1]
      rw [show ([(asciiBytes "host", [host]),
          (asciiBytes "content-length", [natToDec contentLength.toNat])].map
            Prod.fst) =
          [asciiBytes "host", asciiBytes "content-length"] from rfl]
      decide
    · rw [if_neg hcl, if_neg hcl, (canonicalScan_fold_facts rule header _).2.1]
      rw [show ([(asciiBytes "host", [host])].map Prod.fst) =
          [asciiBytes "host"] from rfl]
      decide
  · intro r
    unfold GetHost
    by_cases hr : r.host = []
    · simp [hr]
    · rw [if_pos (by simpa [List.length_pos] using hr), if_pos hr]

/-! ## C7 -/

/-- Host sanitization never touches the URL. -/
theorem sanitize_url (r : HttpRequest) : (SanitizeHostForHeader r).url = r.url := by
  simp only [SanitizeHostForHeader]
  split <;> rfl

/-- Host sanitization never touches the headers. -/
theorem sanitize_header (r : HttpRequest) :
    (SanitizeHostForHeader r).header = r.header := by
  simp only [SanitizeHostForHeader]
  split <;> rfl

/-- Host sanitization never touches the method. -/
theorem sanitize_method (r : HttpRequest) :
    (SanitizeHostForHeader r).method = r.method := by
  simp only [SanitizeHostForHeader]
  split <;> rfl

/-- Host sanitization never touches the content length. -/
theorem sanitize_contentLength (r : HttpRequest) :
    (SanitizeHostForHeader r).contentLength = r.contentLength := by
  simp only [SanitizeHostForHeader]
  split <;> rfl

/-- Lookup in the per-key-sorted map sorts the looked-up values. -/
theorem assocFind_sortEach (m : UrlValues) (k : List Nat) :
    assocFind (sortEachValues m) k = (assocFind m k).map (insSortBy lexLe) := by
  induction m with
  | nil => rfl
  | cons kv m ih =>
      by_cases hk : kv.1 = k
      · simp [sortEachValues, assocFind_cons, hk]
      · simp only [sortEachValues, List.map_cons, assocFind_cons, if_neg hk]
        exact ih

/-- Setting keys from a list whose keys all differ from k leaves lookups
of k unchanged. -/
theorem assocFind_foldl_assocSet_other (l : List (List Nat × α))
    (k : List Nat) (hk : ∀ kv ∈ l, kv.1 ≠ k) :
    ∀ q : List (List Nat × α),
    assocFind (l.foldl (fun q kv => assocSet q kv.1 kv.2) q) k =
      assocFind q k := by
  induction l with
  | nil => intro q; rfl
  | cons kv l ih =>
      intro q
      simp only [List.foldl_cons]
      rw [ih (fun kv' h' => hk kv' (List.mem_cons_of_mem _ h')),
        assocFind_assocSet_other _ _ _ _ (hk kv (List.mem_cons_self _ _))]

/-- Every key of an assocSet result is an old key or the set key. -/
theorem mem_fst_assocSet (q : List (List Nat × α)) (k : List Nat) (v : α)
    (kv' : List Nat × α) (h : kv' ∈ assocSet q k v) :
    kv'.1 ∈ q.map Prod.fst ∨ kv'.1 = k := by
  unfold assocSet at h
  by_cases hh : assocHas q k = true
  · rw [if_pos hh] at h
    rcases List.mem_map.mp h with ⟨e, he, heq⟩
    by_cases hek : e.1 = k
    · rw [if_pos hek] at heq
      right
      rw [← heq]
      exact hek
    · rw [if_neg hek] at heq
      left
      rw [← heq]
      exact List.mem_map_of_mem Prod.fst he
  · rw [if_neg hh] at h
    rcases List.mem_append.mp h with h' | h'
    · exact Or.inl (List.mem_map_of_mem Prod.fst h')
    · right
      rw [List.mem_singleton.mp h']

/-- Every entry of the hoisted query values is keyed by the mapped form of
some header name. -/
theorem buildQuery_keys_prop (rule : Rule) (hdr : HttpHeader)
    (P : List Nat → Prop) (hP : ∀ kv ∈ hdr, P (mappedHoistKey kv.1)) :
    ∀ kv' ∈ (BuildQuery rule hdr).1, P kv'.1 := by
  suffices h : ∀ (hdr : HttpHeader) (acc : UrlValues × HttpHeader),
      (∀ kv ∈ hdr, P (mappedHoistKey kv.1)) → (∀ kv' ∈ acc.1, P kv'.1) →
      ∀ kv' ∈ (hdr.foldl (fun acc kv =>
        let k := mappedHoistKey kv.1
        if Rule.IsValid rule k then (assocSet acc.1 k kv.2, acc.2)
        else (acc.1, assocSet acc.2 k kv.2)) acc).1, P kv'.1 by
    intro kv' h'
    exact h hdr ([], []) hP (by intro kv' hc; cases hc) kv' h'
  intro hdr
  induction hdr with
  | nil => intro acc _ hacc; exact hacc
  | cons kv hdr ih =>
      intro acc hhd hacc
      simp only [List.foldl_cons]
      apply ih _ (fun kv' h' => hhd kv' (List.mem_cons_of_mem _ h'))
      by_cases hr : Rule.IsValid rule (mappedHoistKey kv.1) = true
      · simp only [hr, if_true]
        intro kv' h'
        rcases mem_fst_assocSet _ _ _ _ h' with h'' | h''
        · rcases List.mem_map.mp h'' with ⟨e, he, heq⟩
          exact heq ▸ hacc e he
        · rw [h'']
          exact hhd kv (List.mem_cons_self _ _)
      · simp only [hr, if_false, Bool.false_eq_true]
        exact hacc

/-- Length of a hex encoding. -/
theorem bytesToHex_length (l : List Nat) :
    (bytesToHex l).length = 2 * l.length := by
  induction l with
  | nil => rfl
  | cons b l ih =>
      simp only [bytesToHex, List.flatMap_cons] at ih ⊢
      simp [ih]
      omega

/-- Bytes of a word encoding are below 256. -/
theorem wordBE4_lt (n : Nat) : ∀ b ∈ wordBE4 n, b < 256 := by
  intro b hb
  simp [wordBE4] at hb
  rcases hb with h | h | h | h <;> omega

/-- SHA-256 output bytes are below 256. -/
theorem sha256_bytes_lt (msg : List Nat) : ∀ b ∈ sha256 msg, b < 256 := by
  intro b hb
  simp only [sha256, List.mem_append] at hb
  rcases hb with ((((((h | h) | h) | h) | h) | h) | h) | h <;>
    exact wordBE4_lt _ b h

/-- HMAC output bytes are below 256. -/
theorem hmacsha256_bytes_lt (key data : List Nat) :
    ∀ b ∈ HMACSHA256 key data, b < 256 := by
  intro b hb
  simp only [HMACSHA256] at hb
  exact sha256_bytes_lt _ b hb

/-- Lowercase hex alphabet test. -/
def isHexLowerByte (c : Nat) : Bool :=
  (48 ≤ c && c ≤ 57) || (97 ≤ c && c ≤ 102)

/-- Hex digits of values below sixteen are in the lowercase alphabet. -/
theorem hexChar_isHex (d : Nat) (h : d < 16) :
    isHexLowerByte (hexChar d) = true := by
  unfold hexChar isHexLowerByte
  by_cases hd : d < 10 <;> simp [hd] <;> omega

/-- Hex encodings of byte strings use only the lowercase hex alphabet. -/
theorem bytesToHex_hex (l : List Nat) (hl : ∀ b ∈ l, b < 256) :
    ∀ c ∈ bytesToHex l, isHexLowerByte c = true := by
  intro c hc
  rcases List.mem_flatMap.mp hc with ⟨b, hb, hcb⟩
  have hblt := hl b hb
  simp only [List.mem_cons, List.mem_singleton, List.not_mem_nil, or_false]
    at hcb
  rcases hcb with h | h <;> rw [h] <;> exact hexChar_isHex _ (by omega)

/-- BuildSignature always yields 64 characters. -/
theorem buildSignature_length (key sts : List Nat) :
    (BuildSignature key sts).length = 64 := by
  unfold BuildSignature
  rw [bytesToHex_length, hmacsha256_length]

/-- BuildSignature yields only lowercase hex characters. -/
theorem buildSignature_hex (key sts : List Nat) :
    ∀ c ∈ BuildSignature key sts, isHexLowerByte c = true := by
  unfold BuildSignature
  exact bytesToHex_hex _ (hmacsha256_bytes_lt key sts)

/-- Shape test for YYYYMMDDTHHMMSSZ timestamps: fourteen decimal digits
with T after the date part and a trailing Z. -/
def isTimestampForm : List Nat → Bool
  | [a, b, c, d, e, f, g, h, tt, i, j, k, l, m, n, z] =>
      [a, b, c, d, e, f, g, h, i, j, k, l, m, n].all
        (fun x => 48 ≤ x && x ≤ 57) && tt == 84 && z == 90
  | _ => false

/-- Every formatted signing time has the YYYYMMDDTHHMMSSZ shape. -/
theorem timeFormat_shape (t : GoTime) :
    isTimestampForm t.timeFormat = true := by
  show isTimestampForm
    (pad4 t.year ++ pad2 t.month ++ pad2 t.day ++ [84] ++
     pad2 t.hour ++ pad2 t.minute ++ pad2 t.second ++ [90]) = true
  simp only [pad4, pad2, List.cons_append, List.nil_append, isTimestampForm,
    List.all_cons, List.all_nil, Bool.and_true, Bool.and_eq_true,
    decide_eq_true_eq, beq_self_eq_true, and_true]
  refine ⟨⟨?_, ?_⟩, ?_⟩ <;> omega

/-- setRequiredSigningFields in presign mode stamps algorithm and date
into the query and leaves headers alone. -/
theorem setRequired_presign {s : HttpSignerParams} (hpre : s.isPreSign = true)
    (headers : HttpHeader) (query : UrlValues) :
    setRequiredSigningFields s headers query =
      (headers, valuesSet (valuesSet query AmzAlgorithmKey SigningAlgorithm)
        AmzDateKey s.time.timeFormat) := by
  unfold setRequiredSigningFields
  rw [if_pos hpre]

/-- A hoist key is the original name or one of the two lower-cased
compatibility names. -/
theorem mappedHoistKey_cases (k : List Nat) :
    mappedHoistKey k = k ∨
    mappedHoistKey k = asciiBytes "x-amz-expected-bucket-owner" ∨
    mappedHoistKey k = asciiBytes "x-amz-request-payer" := by
  unfold mappedHoistKey lowerCaseHeadersMap
  rw [assocFind_cons]
  by_cases h1 : asciiBytes "X-Amz-Expected-Bucket-Owner" = k
  · rw [if_pos h1]
    right; left; rfl
  · rw [if_neg h1, assocFind_cons]
    by_cases h2 : asciiBytes "X-Amz-Request-Payer" = k
    · rw [if_pos h2]
      right; right; rfl
    · rw [if_neg h2]
      left; rfl

/-- The query map before hoisting: parsed query with algorithm, date and
credential assigned and values sorted (proof helper naming a prefix of the
buildPresign let chain). -/
def presignBaseQuery (s : HttpSignerParams) (req0 : HttpRequest) : UrlValues :=
  valuesSet
    (sortEachValues (valuesSet (valuesSet (parseQuery req0.url.rawQuery)
      AmzAlgorithmKey SigningAlgorithm) AmzDateKey s.time.timeFormat))
    AmzCredentialKey
    (s.accessKeyID ++ [47] ++
      BuildCredentialScope s.time s.region s.serviceName)

/-- Final presign query with hoisting enabled. -/
theorem presignPipeline_fst_eq_hoist (s : HttpSignerParams)
    (req0 : HttpRequest) (c : DKCache) (hpre : s.isPreSign = true)
    (hd : s.disableHeaderHoisting = false) :
    (presignPipeline s req0 c).1 =
      valuesSet
        ((BuildQuery AllowedQueryHoisting req0.header).1.foldl
          (fun q kv => assocSet q kv.1 kv.2) (presignBaseQuery s req0))
        AmzSignedHeadersKey (presignPipeline s req0 c).2.1 := by
  simp only [presignPipeline, setRequired_presign hpre, hd, presignBaseQuery,
    Bool.false_eq_true, not_false_iff, if_true, ite_true, ite_false]

/-- Final presign query with hoisting disabled. -/
theorem presignPipeline_fst_eq_nohoist (s : HttpSignerParams)
    (req0 : HttpRequest) (c : DKCache) (hpre : s.isPreSign = true)
    (hd : s.disableHeaderHoisting = true) :
    (presignPipeline s req0 c).1 =
      valuesSet (presignBaseQuery s req0)
        AmzSignedHeadersKey (presignPipeline s req0 c).2.1 := by
  simp only [presignPipeline, setRequired_presign hpre, hd, presignBaseQuery,
    not_true, if_false, ite_true, ite_false]

/-- Lookups of the three assigned parameters in the base query. -/
theorem presignBaseQuery_lookups (s : HttpSignerParams) (req0 : HttpRequest) :
    assocFind (presignBaseQuery s req0) AmzAlgorithmKey =
      some [SigningAlgorithm] ∧
    assocFind (presignBaseQuery s req0) AmzDateKey =
      some [s.time.timeFormat] ∧
    assocFind (presignBaseQuery s req0) AmzCredentialKey =
      some [s.accessKeyID ++ [47] ++
        BuildCredentialScope s.time s.region s.serviceName] := by
  have halgdate : AmzAlgorithmKey ≠ AmzDateKey := by decide
  have halgcred : AmzAlgorithmKey ≠ AmzCredentialKey := by decide
  have hdatecred : AmzDateKey ≠ AmzCredentialKey := by decide
  unfold presignBaseQuery
  rw [show ∀ (m : UrlValues) (k v : List Nat), valuesSet m k v =
      assocSet m k [v] from fun _ _ _ => rfl]
  refine ⟨?_, ?_, ?_⟩
  · rw [assocFind_assocSet_other _ _ _ _ (Ne.symm halgcred),
      assocFind_sortEach,
      show ∀ (m : UrlValues) (k v : List Nat), valuesSet m k v =
        assocSet m k [v] from fun _ _ _ => rfl,
      assocFind_assocSet_other _ _ _ _ (Ne.symm halgdate),
      show ∀ (m : UrlValues) (k v : List Nat), valuesSet m k v =
        assocSet m k [v] from fun _ _ _ => rfl,
      assocFind_assocSet_self]
    rfl
  · rw [assocFind_assocSet_other _ _ _ _ (Ne.symm hdatecred),
      assocFind_sortEach,
      show ∀ (m : UrlValues) (k v : List Nat), valuesSet m k v =
        assocSet m k [v] from fun _ _ _ => rfl,
      assocFind_assocSet_self]
    rfl
  · rw [assocFind_assocSet_self]

/-- Every hoisted key differs from each of the three assigned parameter
names, given that no header carries those exact names. -/
theorem hoisted_keys_ne (req0 : HttpRequest)
    (hkeys : ∀ kv ∈ req0.header, kv.1 ≠ AmzAlgorithmKey ∧
      kv.1 ≠ AmzDateKey ∧ kv.1 ≠ AmzCredentialKey)
    (key : List Nat)
    (hkey : key = AmzAlgorithmKey ∨ key = AmzDateKey ∨
      key = AmzCredentialKey) :
    ∀ kv' ∈ (BuildQuery AllowedQueryHoisting req0.header).1, kv'.1 ≠ key := by
  refine buildQuery_keys_prop _ _ (fun x => x ≠ key) ?_
  intro kv hkv
  rcases mappedHoistKey_cases kv.1 with h | h | h
  · rw [h]
    rcases hkeys kv hkv with ⟨h1, h2, h3⟩
    rcases hkey with hk | hk | hk <;> rw [hk] <;> assumption
  · rw [h]
    rcases hkey with hk | hk | hk <;> rw [hk] <;> decide
  · rw [h]
    rcases hkey with hk | hk | hk <;> rw [hk] <;> decide

/-- The assigned presign query parameters survive to the final query map:
algorithm, date, credential (given that no header collides with them), and
the signed-header list. -/
theorem presignPipeline_query_facts (s : HttpSignerParams)
    (req0 : HttpRequest) (c : DKCache) (hpre : s.isPreSign = true)
    (hkeys : ∀ kv ∈ req0.header, kv.1 ≠ AmzAlgorithmKey ∧
      kv.1 ≠ AmzDateKey ∧ kv.1 ≠ AmzCredentialKey) :
    assocFind (presignPipeline s req0 c).1 AmzAlgorithmKey =
      some [SigningAlgorithm] ∧
    assocFind (presignPipeline s req0 c).1 AmzDateKey =
      some [s.time.timeFormat] ∧
    assocFind (presignPipeline s req0 c).1 AmzCredentialKey =
      some [s.accessKeyID ++ [47] ++
        BuildCredentialScope s.time s.region s.serviceName] ∧
    assocFind (presignPipeline s req0 c).1 AmzSignedHeadersKey =
      some [(presignPipeline s req0 c).2.1] := by
  have halgshk : AmzAlgorithmKey ≠ AmzSignedHeadersKey := by decide
  have hdateshk : AmzDateKey ≠ AmzSignedHeadersKey := by decide
  have hcredshk : AmzCredentialKey ≠ AmzSignedHeadersKey := by decide
  rcases presignBaseQuery_lookups s req0 with ⟨hba, hbd, hbc⟩
  cases hd : s.disableHeaderHoisting with
  | false =>
      rw [presignPipeline_fst_eq_hoist s req0 c hpre hd,
        show ∀ (m : UrlValues) (k v : List Nat), valuesSet m k v =
          assocSet m k [v] from fun _ _ _ => rfl]
      refine ⟨?_, ?_, ?_, ?_⟩
      · rw [assocFind_assocSet_other _ _ _ _ (Ne.symm halgshk),
          assocFind_foldl_assocSet_other _ _
            (hoisted_keys_ne req0 hkeys _ (Or.inl rfl))]
        exact hba
      · rw [assocFind_assocSet_other _ _ _ _ (Ne.symm hdateshk),
          assocFind_foldl_assocSet_other _ _
            (hoisted_keys_ne req0 hkeys _ (Or.inr (Or.inl rfl)))]
        exact hbd
      · rw [assocFind_assocSet_other _ _ _ _ (Ne.symm hcredshk),
          assocFind_foldl_assocSet_other _ _
            (hoisted_keys_ne req0 hkeys _ (Or.inr (Or.inr rfl)))]
        exact hbc
      · rw [assocFind_assocSet_self]
  | true =>
      rw [presignPipeline_fst_eq_nohoist s req0 c hpre hd,
        show ∀ (m : UrlValues) (k v : List Nat), valuesSet m k v =
          assocSet m k [v] from fun _ _ _ => rfl]
      refine ⟨?_, ?_, ?_, ?_⟩
      · rw [assocFind_assocSet_other _ _ _ _ (Ne.symm halgshk)]
        exact hba
      · rw [assocFind_assocSet_other _ _ _ _ (Ne.symm hdateshk)]
        exact hbd
      · rw [assocFind_assocSet_other _ _ _ _ (Ne.symm hcredshk)]
        exact hbc
      · rw [assocFind_assocSet_self]

/-- The URL produced by buildPresign: the original URL whose raw query is
the encoded final query map with the signature appended as the last
fragment. -/
theorem buildPresign_url_eq (s : HttpSignerParams) (req0 : HttpRequest)
    (c : DKCache) :
    (buildPresign s req0 c).1.url =
      { req0.url with
        rawQuery :=
          replacePlus (valuesEncode (presignPipeline s req0 c).1) ++ [38] ++
          AmzSignatureKey ++ [61] ++ (presignPipeline s req0 c).2.2 } := by
  simp only [buildPresign, presignPipeline]
  rw [sanitize_url]

set_option maxHeartbeats 2000000 in
/-- The signature component of the presign pipeline is a BuildSignature
value (stated existentially to keep its large arguments opaque). -/
theorem presignPipeline_sig_ex (s : HttpSignerParams) (req0 : HttpRequest)
    (c : DKCache) :
    ∃ key sts, (presignPipeline s req0 c).2.2 = BuildSignature key sts :=
  ⟨_, _, rfl⟩

/-- C7 amended: provided no request header is named exactly
X-Amz-Algorithm, X-Amz-Date, or X-Amz-Credential (hoisting would move such
a header over the assigned parameter), the URL returned by PresignHTTP is
the request URL whose query is the full encoding of a query map that
carries X-Amz-Algorithm=AWS4-HMAC-SHA256, X-Amz-Date in YYYYMMDDTHHMMSSZ
form, X-Amz-Credential=accessKeyId/date/region/service/aws4_request and
X-Amz-SignedHeaders, followed by a final appended X-Amz-Signature whose
value is exactly 64 lowercase hexadecimal characters. -/
theorem presignHTTP_url_query_spec (cfg : Config) (cache : DKCache)
    (req : HttpRequest) (payloadHash : List Nat) (t : GoTime)
    (hh : payloadHash ≠ [])
    (hkeys : ∀ kv ∈ req.header, kv.1 ≠ AmzAlgorithmKey ∧
      kv.1 ≠ AmzDateKey ∧ kv.1 ≠ AmzCredentialKey) :
    (∃ resultHeaders,
      (PresignHTTP cfg cache req payloadHash t).1 =
        Except.ok (URLV.toString
          { req.url with
            rawQuery :=
              replacePlus (valuesEncode
                (presignPipeline (mkSignerParams cfg payloadHash t true) req
                  cache).1) ++ [38] ++ AmzSignatureKey ++ [61] ++
              (presignPipeline (mkSignerParams cfg payloadHash t true) req
                cache).2.2 },
          resultHeaders)) ∧
    assocFind (presignPipeline (mkSignerParams cfg payloadHash t true) req
        cache).1 AmzAlgorithmKey = some [SigningAlgorithm] ∧
    assocFind (presignPipeline (mkSignerParams cfg payloadHash t true) req
        cache).1 AmzDateKey = some [t.timeFormat] ∧
    isTimestampForm t.timeFormat = true ∧
    assocFind (presignPipeline (mkSignerParams cfg payloadHash t true) req
        cache).1 AmzCredentialKey =
      some [cfg.accessKeyID ++ [47] ++
        BuildCredentialScope t cfg.region cfg.service] ∧
    assocFind (presignPipeline (mkSignerParams cfg payloadHash t true) req
        cache).1 AmzSignedHeadersKey =
      some [(presignPipeline (mkSignerParams cfg payloadHash t true) req
        cache).2.1] ∧
    ((presignPipeline (mkSignerParams cfg payloadHash t true) req
        cache).2.2).length = 64 ∧
    (∀ ch ∈ (presignPipeline (mkSignerParams cfg payloadHash t true) req
        cache).2.2, isHexLowerByte ch = true) := by
  rcases presignPipeline_query_facts (mkSignerParams cfg payloadHash t true)
    req cache rfl hkeys with ⟨ha, hd, hc, hs⟩
  rcases presignPipeline_sig_ex (mkSignerParams cfg payloadHash t true) req
    cache with ⟨key, sts, hsig⟩
  refine ⟨⟨canonicalizeResultHeaders
      (buildPresign (mkSignerParams cfg payloadHash t true) req cache).2.1, ?_⟩,
    ha, hd, timeFormat_shape t, hc, hs, ?_, ?_⟩
  · simp only [PresignHTTP, if_neg hh]
    rw [buildPresign_url_eq]
  · rw [hsig]
    exact buildSignature_length key sts
  · rw [hsig]
    exact buildSignature_hex key sts

set_option maxHeartbeats 8000000 in
/-- C7 counterexample: a hoistable request header named exactly
X-Amz-Credential overwrites the assigned credential parameter, so the
presigned URL of such a request carries X-Amz-Credential=evil instead of
accessKeyId/date/region/service/aws4_request. -/
theorem presignHTTP_credential_overwritten_counterexample :
    valuesGetD (parseQuery
      (buildPresign (mkSignerParams wCfg (asciiBytes "x") wEpoch true)
        (HttpRequest.mk (asciiBytes "GET")
          (URLV.mk (asciiBytes "https") [] (asciiBytes "example.com")
            (asciiBytes "/k") [])
          [(asciiBytes "X-Amz-Credential", [asciiBytes "evil"])] [] 0)
        []).1.url.rawQuery)
      AmzCredentialKey = [asciiBytes "evil"] ∧
    asciiBytes "evil" ≠
      wCfg.accessKeyID ++ [47] ++
        BuildCredentialScope wEpoch wCfg.region wCfg.service := by
  constructor
  · decide
  · decide

/-- C7 amended witness at the fixture request, which has no colliding
headers. -/
theorem presignHTTP_url_query_spec_witness :
    (asciiBytes "x" ≠ [] ∧
     ∀ kv ∈ wReq.header, kv.1 ≠ AmzAlgorithmKey ∧
       kv.1 ≠ AmzDateKey ∧ kv.1 ≠ AmzCredentialKey) ∧
    (assocFind (presignPipeline (mkSignerParams wCfg (asciiBytes "x") wEpoch
        true) wReq []).1 AmzAlgorithmKey = some [SigningAlgorithm] ∧
     isTimestampForm wEpoch.timeFormat = true ∧
     ((presignPipeline (mkSignerParams wCfg (asciiBytes "x") wEpoch true) wReq
        []).2.2).length = 64) :=
  ⟨⟨by decide, by decide⟩,
   (presignHTTP_url_query_spec wCfg [] wReq (asciiBytes "x") wEpoch
      (by decide) (by decide)).2.1,
   (presignHTTP_url_query_spec wCfg [] wReq (asciiBytes "x") wEpoch
      (by decide) (by decide)).2.2.2.1,
   (presignHTTP_url_query_spec wCfg [] wReq (asciiBytes "x") wEpoch
      (by decide) (by decide)).2.2.2.2.2.2.1⟩

/-! ## C6: ordering and sorting lemmas -/

/-- lexLe is total. -/
theorem lexLe_total : ∀ a b : List Nat, lexLe a b = true ∨ lexLe b a = true := by
  intro a
  induction a with
  | nil => intro b; left; rfl
  | cons x xs ih =>
      intro b
      cases b with
      | nil => right; rfl
      | cons y ys =>
          rcases Nat.lt_trichotomy x y with h | h | h
          · left; simp [lexLe, h]
          · subst h
            rcases ih ys with h' | h'
            · left; simp [lexLe, h']
            · right; simp [lexLe, h']
          · right; simp [lexLe, h]

/-- lexLe is transitive. -/
theorem lexLe_trans : ∀ a b c : List Nat,
    lexLe a b = true → lexLe b c = true → lexLe a c = true := by
  intro a
  induction a with
  | nil => intro b c _ _; rfl
  | cons x xs ih =>
      intro b c hab hbc
      cases b with
      | nil => simp [lexLe] at hab
      | cons y ys =>
          cases c with
          | nil => simp [lexLe] at hbc
          | cons z zs =>
              simp only [lexLe] at hab hbc ⊢
              rcases Nat.lt_trichotomy x y with h1 | h1 | h1 <;>
                rcases Nat.lt_trichotomy y z with h2 | h2 | h2
              all_goals
                first
                | (rw [if_pos (by omega)])
                | (rw [if_neg (by omega), if_neg (by omega)]
                   subst_eqs
                   apply ih ys zs
                   · simpa [lexLe, Nat.lt_irrefl] using hab
                   · simpa [lexLe, Nat.lt_irrefl] using hbc)
                | (exfalso
                   first
                   | (rw [if_neg (by omega), if_pos (by omega)] at hab
                      exact absurd hab (by simp))
                   | (rw [if_neg (by omega), if_pos (by omega)] at hbc
                      exact absurd hbc (by simp)))

/-- lexLe is antisymmetric. -/
theorem lexLe_antisymm : ∀ a b : List Nat,
    lexLe a b = true → lexLe b a = true → a = b := by
  intro a
  induction a with
  | nil =>
      intro b _ hba
      cases b with
      | nil => rfl
      | cons y ys => simp [lexLe] at hba
  | cons x xs ih =>
      intro b hab hba
      cases b with
      | nil => simp [lexLe] at hab
      | cons y ys =>
          simp only [lexLe] at hab hba
          rcases Nat.lt_trichotomy x y with h | h | h
          · rw [if_neg (by omega), if_pos h] at hba
            exact absurd hba (by simp)
          · subst h
            rw [if_neg (Nat.lt_irrefl x), if_neg (Nat.lt_irrefl x)] at hab hba
            rw [ih ys hab hba]
          · rw [if_neg (by omega), if_pos h] at hab
            exact absurd hab (by simp)

/-- Insertion produces a permutation. -/
theorem insSorted_perm (le : α → α → Bool) (x : α) (l : List α) :
    List.Perm (insSorted le x l) (x :: l) := by
  induction l with
  | nil => exact List.Perm.refl _
  | cons y ys ih =>
      unfold insSorted
      by_cases h : le x y = true
      · rw [if_pos h]
      · rw [if_neg h]
        exact (ih.cons y).trans (List.Perm.swap x y ys)

/-- Insertion sort produces a permutation. -/
theorem insSortBy_perm (le : α → α → Bool) (l : List α) :
    List.Perm (insSortBy le l) l := by
  induction l with
  | nil => exact List.Perm.refl _
  | cons x xs ih =>
      unfold insSortBy
      exact (insSorted_perm le x (insSortBy le xs)).trans (ih.cons x)

/-- Insertion into a pairwise-le list stays pairwise-le. -/
theorem insSorted_pairwise (le : α → α → Bool)
    (htot : ∀ a b, le a b = true ∨ le b a = true)
    (htr : ∀ a b c, le a b = true → le b c = true → le a c = true)
    (x : α) (l : List α) (hl : l.Pairwise (fun a b => le a b = true)) :
    (insSorted le x l).Pairwise (fun a b => le a b = true) := by
  induction l with
  | nil => simp [insSorted]
  | cons y ys ih =>
      rcases List.pairwise_cons.mp hl with ⟨hy, hys⟩
      unfold insSorted
      by_cases h : le x y = true
      · rw [if_pos h]
        refine List.pairwise_cons.mpr ⟨?_, hl⟩
        intro a ha
        rcases List.mem_cons.mp ha with ha | ha
        · rw [ha]; exact h
        · exact htr x y a h (hy a ha)
      · rw [if_neg h]
        refine List.pairwise_cons.mpr ⟨?_, ih hys⟩
        intro a ha
        have : a ∈ x :: ys := (insSorted_perm le x ys).mem_iff.mp ha
        rcases List.mem_cons.mp this with ha' | ha'
        · rw [ha']
          rcases htot x y with h' | h'
          · exact absurd h' h
          · exact h'
        · exact hy a ha'

/-- Insertion sort sorts. -/
theorem insSortBy_pairwise (le : α → α → Bool)
    (htot : ∀ a b, le a b = true ∨ le b a = true)
    (htr : ∀ a b c, le a b = true → le b c = true → le a c = true)
    (l : List α) :
    (insSortBy le l).Pairwise (fun a b => le a b = true) := by
  induction l with
  | nil => simp [insSortBy]
  | cons x xs ih => exact insSorted_pairwise le htot htr x _ ih

/-- Sorting a pairwise-le list is the identity. -/
theorem insSortBy_of_pairwise (le : α → α → Bool) (l : List α)
    (hl : l.Pairwise (fun a b => le a b = true)) : insSortBy le l = l := by
  induction l with
  | nil => rfl
  | cons x xs ih =>
      rcases List.pairwise_cons.mp hl with ⟨hx, hxs⟩
      unfold insSortBy
      rw [ih hxs]
      cases xs with
      | nil => rfl
      | cons y ys =>
          unfold insSorted
          rw [if_pos (hx y (List.mem_cons_self _ _))]

/-- Insertion sort is idempotent. -/
theorem insSortBy_idem (le : α → α → Bool)
    (htot : ∀ a b, le a b = true ∨ le b a = true)
    (htr : ∀ a b c, le a b = true → le b c = true → le a c = true)
    (l : List α) : insSortBy le (insSortBy le l) = insSortBy le l :=
  insSortBy_of_pairwise le _ (insSortBy_pairwise le htot htr l)

/-- Sorting entries by key (the canonical order of an encoded query). -/
def sortEntriesByKey (m : UrlValues) : UrlValues :=
  insSortBy (fun a b => lexLe a.1 b.1) m

/-- Entry insertion commutes with projecting keys. -/
theorem insSorted_map_fst (kv : List Nat × List (List Nat)) (l : UrlValues) :
    (insSorted (fun a b => lexLe a.1 b.1) kv l).map Prod.fst =
      insSorted lexLe kv.1 (l.map Prod.fst) := by
  induction l with
  | nil => rfl
  | cons y ys ih =>
      simp only [insSorted, List.map_cons]
      by_cases h : lexLe kv.1 y.1 = true
      · rw [if_pos h, if_pos h]
        rfl
      · rw [if_neg h, if_neg h]
        simp only [List.map_cons]
        rw [ih]

/-- Entry sorting commutes with projecting keys. -/
theorem sortEntries_map_fst (m : UrlValues) :
    (sortEntriesByKey m).map Prod.fst = insSortBy lexLe (m.map Prod.fst) := by
  unfold sortEntriesByKey
  induction m with
  | nil => rfl
  | cons kv m ih =>
      simp only [insSortBy, List.map_cons]
      rw [insSorted_map_fst, ih]

/-! ## C6: escape and unescape round trip -/

/-- Byte escape after the plus-to-%20 replacement: every reserved byte,
space included, becomes an uppercase percent triple. -/
def pctOrSelf (c : Nat) : List Nat :=
  if shouldEscape c = true then [37, upperHex (c / 16), upperHex (c % 16)]
  else [c]

/-- Replacing pluses in an escaped byte yields the uniform escape. -/
theorem replacePlus_queryEscapeByte (c : Nat) :
    replacePlus (queryEscapeByte c) = pctOrSelf c := by
  unfold queryEscapeByte pctOrSelf replacePlus
  by_cases hesc : shouldEscape c = true
  · rw [if_pos hesc, if_pos hesc]
    by_cases h32 : c = 32
    · subst h32
      rfl
    · rw [if_neg (by simpa using h32)]
      have h37 : (37 : Nat) ≠ 43 := by omega
      have huh : ∀ d : Nat, upperHex d ≠ 43 := by
        intro d
        unfold upperHex
        by_cases hd : d < 10 <;> simp [hd] <;> omega
      simp [h37, huh (c / 16), huh (c % 16)]
  · rw [if_neg hesc, if_neg hesc]
    have : c ≠ 43 := by
      intro hc
      subst hc
      simp [shouldEscape, isAlnumByte] at hesc
    simp [this]

/-- replacePlus distributes over flatMap. -/
theorem replacePlus_flatMap (f : Nat → List Nat) (s : List Nat) :
    replacePlus (s.flatMap f) = s.flatMap (fun c => replacePlus (f c)) := by
  induction s with
  | nil => rfl
  | cons c cs ih =>
      simp only [List.flatMap_cons]
      unfold replacePlus at ih ⊢
      rw [List.flatMap_append, ih]

/-- The raw query text of an escaped string. -/
theorem replacePlus_queryEscape (s : List Nat) :
    replacePlus (queryEscape s) = s.flatMap pctOrSelf := by
  unfold queryEscape
  rw [replacePlus_flatMap]
  induction s with
  | nil => rfl
  | cons c cs ih =>
      simp only [List.flatMap_cons]
      rw [replacePlus_queryEscapeByte, ih]

/-- Uppercase hex digits satisfy the unescape digit test. -/
theorem isHexDigitB_upperHex (d : Nat) (h : d < 16) :
    isHexDigitB (upperHex d) = true := by
  unfold isHexDigitB upperHex
  by_cases hd : d < 10 <;> simp [hd] <;> omega

/-- Unescape digit value of an uppercase hex digit. -/
theorem hexVal_upperHex (d : Nat) (h : d < 16) : hexVal (upperHex d) = d := by
  unfold hexVal upperHex
  by_cases hd : d < 10
  · rw [if_pos hd, if_pos (by omega)]
    omega
  · rw [if_neg hd, if_neg (by omega), if_pos (by omega)]
    omega

/-- Unreserved bytes are neither percent nor plus. -/
theorem not_escape_ne (c : Nat) (h : shouldEscape c = false) :
    c ≠ 37 ∧ c ≠ 43 := by
  constructor <;> intro hc <;> subst hc <;> simp [shouldEscape, isAlnumByte] at h

/-- Unescape equation for a percent triple. -/
theorem queryUnescape_pct_cons (a b : Nat) (rest : List Nat)
    (ha : isHexDigitB a = true) (hb : isHexDigitB b = true) :
    queryUnescape (37 :: a :: b :: rest) =
      (queryUnescape rest).map (fun r => (hexVal a * 16 + hexVal b) :: r) := by
  conv_lhs => unfold queryUnescape
  rw [if_pos rfl]
  simp [ha, hb]

/-- Unescape equation for an ordinary byte. -/
theorem queryUnescape_other_cons (c : Nat) (rest : List Nat)
    (h37 : c ≠ 37) (h43 : c ≠ 43) :
    queryUnescape (c :: rest) = (queryUnescape rest).map (fun r => c :: r) := by
  conv_lhs => unfold queryUnescape
  rw [if_neg h37, if_neg h43]

/-- Unescape is a left inverse of the uniform escape on byte strings. -/
theorem queryUnescape_flatMap_pctOrSelf (s : List Nat)
    (hs : ∀ b ∈ s, b < 256) :
    queryUnescape (s.flatMap pctOrSelf) = some s := by
  induction s with
  | nil => rfl
  | cons c cs ih =>
      have hc : c < 256 := hs c (List.mem_cons_self _ _)
      have ih' := ih (fun b hb => hs b (List.mem_cons_of_mem _ hb))
      simp only [List.flatMap_cons]
      unfold pctOrSelf
      by_cases hesc : shouldEscape c = true
      · rw [if_pos hesc]
        show queryUnescape
          (37 :: upperHex (c / 16) :: upperHex (c % 16) :: cs.flatMap pctOrSelf)
          = some (c :: cs)
        rw [queryUnescape_pct_cons _ _ _
          (isHexDigitB_upperHex (c / 16) (by omega))
          (isHexDigitB_upperHex (c % 16) (by omega)), ih']
        rw [hexVal_upperHex (c / 16) (by omega), hexVal_upperHex (c % 16)
          (by omega)]
        have : c / 16 * 16 + c % 16 = c := by omega
        rw [this]
        rfl
      · rw [if_neg hesc]
        rcases not_escape_ne c (by simpa using hesc) with ⟨h37, h43⟩
        show queryUnescape (c :: cs.flatMap pctOrSelf) = some (c :: cs)
        rw [queryUnescape_other_cons _ _ h37 h43, ih']
        rfl

/-- The uniform escape emits no ampersand, semicolon, or equals byte. -/
theorem pctOrSelf_no_sep (c : Nat) :
    ∀ x ∈ pctOrSelf c, x ≠ 38 ∧ x ≠ 59 ∧ x ≠ 61 := by
  intro x hx
  unfold pctOrSelf at hx
  have huh : ∀ d : Nat, upperHex d ≠ 38 ∧ upperHex d ≠ 59 ∧ upperHex d ≠ 61 := by
    intro d
    unfold upperHex
    by_cases hd : d < 10 <;> simp [hd] <;> omega
  by_cases hesc : shouldEscape c = true
  · rw [if_pos hesc] at hx
    simp only [List.mem_cons, List.mem_singleton, List.not_mem_nil,
      or_false] at hx
    rcases hx with h | h | h
    · subst h; exact ⟨by omega, by omega, by omega⟩
    · subst h; exact huh _
    · subst h; exact huh _
  · rw [if_neg hesc] at hx
    simp only [List.mem_singleton] at hx
    subst hx
    refine ⟨?_, ?_, ?_⟩ <;> intro hc <;> subst hc <;> exact hesc (by decide)

/-- Separator freeness lifted to whole escaped strings. -/
theorem flatMap_pctOrSelf_no_sep (s : List Nat) :
    ∀ x ∈ s.flatMap pctOrSelf, x ≠ 38 ∧ x ≠ 59 ∧ x ≠ 61 := by
  intro x hx
  rcases List.mem_flatMap.mp hx with ⟨c, _, hxc⟩
  exact pctOrSelf_no_sep c x hxc

/-- Index of the separator just after a separator-free prefix. -/
theorem indexByte_append (a : List Nat) (sep : Nat) (b : List Nat)
    (ha : sep ∉ a) : indexByte (a ++ sep :: b) sep = some a.length := by
  induction a with
  | nil => simp [indexByte]
  | cons x xs ih =>
      have hx : x ≠ sep := fun hc => ha (hc ▸ List.mem_cons_self _ _)
      have ih' := ih (fun hc => ha (List.mem_cons_of_mem _ hc))
      simp only [List.cons_append, indexByte, if_neg hx]
      rw [show xs.append (sep :: b) = xs ++ sep :: b from rfl, ih']
      rfl

/-- Cutting at a separator recovers the two separator-free sides. -/
theorem cutByte_recover (a : List Nat) (sep : Nat) (b : List Nat)
    (ha : sep ∉ a) : cutByte (a ++ sep :: b) sep = (a, b) := by
  unfold cutByte
  rw [indexByte_append a sep b ha]
  show (List.take a.length (a ++ sep :: b), List.drop (a.length + 1) (a ++ sep :: b)) = (a, b)
  rw [List.take_left, ← List.drop_drop, List.drop_left]
  rfl

/-- Intercalate of a single chunk. -/
theorem intercalate_single (x : Nat) (l : List Nat) :
    List.intercalate [x] [l] = l := by
  simp [List.intercalate]

/-- Intercalate equation for two or more chunks. -/
theorem intercalate_two (x : Nat) (l l2 : List Nat) (ls : List (List Nat)) :
    List.intercalate [x] (l :: l2 :: ls) =
      l ++ x :: List.intercalate [x] (l2 :: ls) := rfl

/-- Bytes of chunks are bytes of their intercalation. -/
theorem mem_intercalate (x b : Nat) (ls : List (List Nat)) (l : List Nat)
    (hl : l ∈ ls) (hb : b ∈ l) : b ∈ List.intercalate [x] ls := by
  induction ls with
  | nil => cases hl
  | cons l0 rest ih =>
      cases rest with
      | nil =>
          rw [List.mem_singleton] at hl
          subst hl
          rw [intercalate_single]
          exact hb
      | cons l1 rest2 =>
          rw [intercalate_two]
          rcases List.mem_cons.mp hl with h | h
          · subst h
            exact List.mem_append_left _ hb
          · exact List.mem_append_right _
              (List.mem_cons_of_mem _ (ih h))

/-- Key presence distributes over append. -/
theorem assocHas_append {α : Type} (m1 m2 : List (List Nat × α))
    (k : List Nat) :
    assocHas (m1 ++ m2) k = (assocHas m1 k || assocHas m2 k) := by
  induction m1 with
  | nil => simp [assocHas]
  | cons e m ih =>
      by_cases h : e.1 = k
      · simp [assocHas, h]
      · simp [assocHas, h, ih]

/-- Absence of a key is absence among all entries. -/
theorem assocHas_eq_false_iff {α : Type} (m : List (List Nat × α))
    (k : List Nat) :
    assocHas m k = false ↔ ∀ e ∈ m, e.1 ≠ k := by
  induction m with
  | nil => simp [assocHas]
  | cons e m ih =>
      by_cases h : e.1 = k
      · simp [assocHas, h]
      · simp [assocHas, h, ih]

/-- Key presence of the head entry. -/
theorem assocHas_cons {α : Type} (e : List Nat × α) (m : List (List Nat × α))
    (k : List Nat) :
    assocHas (e :: m) k = if e.1 = k then true else assocHas m k := rfl

/-- Replacing values in place does not change key presence. -/
theorem assocHas_map_replace {α : Type} (m : List (List Nat × α))
    (k k' : List Nat) (v : α) :
    assocHas (m.map fun kv => if kv.1 = k then (kv.1, v) else kv) k' =
      assocHas m k' := by
  induction m with
  | nil => rfl
  | cons e m ih =>
      by_cases hk : e.1 = k <;> simp [assocHas, hk, ih]

/-- A set key is present. -/
theorem assocHas_assocSet_self {α : Type} (m : List (List Nat × α))
    (k : List Nat) (v : α) : assocHas (assocSet m k v) k = true := by
  unfold assocSet
  by_cases h : assocHas m k = true
  · rw [if_pos h, assocHas_map_replace]
    exact h
  · rw [if_neg h, assocHas_append]
    simp [assocHas]

/-- Setting a different key does not change presence. -/
theorem assocHas_assocSet_other {α : Type} (m : List (List Nat × α))
    (k k' : List Nat) (v : α) (hne : k' ≠ k) :
    assocHas (assocSet m k' v) k = assocHas m k := by
  unfold assocSet
  by_cases h : assocHas m k' = true
  · rw [if_pos h, assocHas_map_replace]
  · rw [if_neg h, assocHas_append]
    simp [assocHas, hne]

/-- In-place replacement with the already stored value is the identity. -/
theorem map_replace_stable {α : Type} (m : List (List Nat × α))
    (k : List Nat) (v : α) (hvals : ∀ e ∈ m, e.1 = k → e.2 = v) :
    (m.map fun kv => if kv.1 = k then (kv.1, v) else kv) = m := by
  induction m with
  | nil => rfl
  | cons e m ih =>
      simp only [List.map_cons]
      rw [ih (fun x hx => hvals x (List.mem_cons_of_mem _ hx))]
      by_cases hk : e.1 = k
      · rw [if_pos hk, ← hvals e (List.mem_cons_self _ _) hk]
      · rw [if_neg hk]

/-- Setting an already uniformly stored value changes nothing. -/
theorem assocSet_stable {α : Type} (m : List (List Nat × α)) (k : List Nat)
    (v : α) (hvals : ∀ e ∈ m, e.1 = k → e.2 = v)
    (hhas : assocHas m k = true) : assocSet m k v = m := by
  unfold assocSet
  rw [if_pos hhas, map_replace_stable m k v hvals]

/-- After a set, every entry at the key carries the set value. -/
theorem assocSet_vals {α : Type} (m : List (List Nat × α)) (k : List Nat)
    (v : α) : ∀ e ∈ assocSet m k v, e.1 = k → e.2 = v := by
  intro e he hk
  unfold assocSet at he
  by_cases h : assocHas m k = true
  · rw [if_pos h] at he
    rcases List.mem_map.mp he with ⟨e0, _, heq⟩
    by_cases h0 : e0.1 = k
    · rw [if_pos h0] at heq
      rw [← heq]
    · rw [if_neg h0] at heq
      rw [← heq] at hk
      exact absurd hk h0
  · rw [if_neg h] at he
    rcases List.mem_append.mp he with h1 | h1
    · exact absurd hk
        ((assocHas_eq_false_iff m k).mp (Bool.eq_false_iff.mpr h) e h1)
    · rw [List.mem_singleton] at h1
      rw [h1]

/-- Uniform values at a key survive a set at another key. -/
theorem assocSet_vals_other {α : Type} (m : List (List Nat × α))
    (k k' : List Nat) (v : α) (v' : α) (hne : k' ≠ k)
    (hvals : ∀ e ∈ m, e.1 = k → e.2 = v) :
    ∀ e ∈ assocSet m k' v', e.1 = k → e.2 = v := by
  intro e he hk
  unfold assocSet at he
  by_cases h : assocHas m k' = true
  · rw [if_pos h] at he
    rcases List.mem_map.mp he with ⟨e0, h0m, heq⟩
    by_cases h0 : e0.1 = k'
    · rw [if_pos h0] at heq
      rw [← heq] at hk
      have hk' : e0.1 = k := hk
      rw [h0] at hk'
      exact absurd hk' hne
    · rw [if_neg h0] at heq
      rw [← heq] at hk ⊢
      exact hvals e0 h0m hk
  · rw [if_neg h] at he
    rcases List.mem_append.mp he with h1 | h1
    · exact hvals e h1 hk
    · rw [List.mem_singleton] at h1
      rw [h1] at hk
      have hk' : k' = k := hk
      exact absurd hk' hne

/-- Setting the same key and value twice equals setting once. -/
theorem assocSet_assocSet_same {α : Type} (m : List (List Nat × α))
    (k : List Nat) (v : α) : assocSet (assocSet m k v) k v = assocSet m k v :=
  assocSet_stable _ _ _ (assocSet_vals m k v) (assocHas_assocSet_self m k v)

/-- An absent key appears under no entry. -/
theorem not_mem_fst_of_has_false {α : Type} (m : List (List Nat × α))
    (k : List Nat) (h : assocHas m k = false) : k ∉ m.map Prod.fst := by
  intro hmem
  rcases List.mem_map.mp hmem with ⟨e, hem, hek⟩
  exact (assocHas_eq_false_iff m k).mp h e hem hek

/-- Adding a query value preserves distinctness of the keys. -/
theorem valuesAdd_nodup (m : UrlValues) (k v : List Nat)
    (h : (m.map Prod.fst).Nodup) : ((valuesAdd m k v).map Prod.fst).Nodup := by
  unfold valuesAdd
  by_cases hh : assocHas m k = true
  · rw [if_pos hh, map_fst_map_append]
    exact h
  · rw [if_neg hh, List.map_append]
    simp only [List.map_cons, List.map_nil]
    rw [List.nodup_append]
    exact ⟨h, List.nodup_singleton _,
      by
        intro x hx hx'
        rw [List.mem_singleton] at hx'
        exact not_mem_fst_of_has_false m k (Bool.eq_false_iff.mpr hh)
          (hx' ▸ hx)⟩

/-- Adding a query value keeps every value list nonempty. -/
theorem valuesAdd_values_ne (m : UrlValues) (k v : List Nat)
    (h : ∀ e ∈ m, e.2 ≠ []) : ∀ e ∈ valuesAdd m k v, e.2 ≠ [] := by
  intro e he
  unfold valuesAdd at he
  by_cases hh : assocHas m k = true
  · rw [if_pos hh] at he
    rcases List.mem_map.mp he with ⟨e0, h0m, heq⟩
    by_cases h0 : e0.1 = k
    · rw [if_pos h0] at heq
      rw [← heq]
      simp
    · rw [if_neg h0] at heq
      rw [← heq]
      exact h e0 h0m
  · rw [if_neg hh] at he
    rcases List.mem_append.mp he with h1 | h1
    · exact h e h1
    · rw [List.mem_singleton] at h1
      rw [h1]
      simp

/-- Byte bound of query entries: keys and values below 256. -/
def entryBounded (e : List Nat × List (List Nat)) : Prop :=
  (∀ b ∈ e.1, b < 256) ∧ ∀ w ∈ e.2, ∀ b ∈ w, b < 256

/-- Adding a bounded pair preserves boundedness of all entries. -/
theorem valuesAdd_bounded (m : UrlValues) (k v : List Nat)
    (hm : ∀ e ∈ m, entryBounded e) (hk : ∀ b ∈ k, b < 256)
    (hv : ∀ b ∈ v, b < 256) : ∀ e ∈ valuesAdd m k v, entryBounded e := by
  intro e he
  unfold valuesAdd at he
  by_cases hh : assocHas m k = true
  · rw [if_pos hh] at he
    rcases List.mem_map.mp he with ⟨e0, h0m, heq⟩
    by_cases h0 : e0.1 = k
    · rw [if_pos h0] at heq
      rw [← heq]
      refine ⟨(hm e0 h0m).1, ?_⟩
      intro w hw
      rcases List.mem_append.mp hw with h1 | h1
      · exact (hm e0 h0m).2 w h1
      · rw [List.mem_singleton] at h1
        rw [h1]
        exact hv
    · rw [if_neg h0] at heq
      rw [← heq]
      exact hm e0 h0m
  · rw [if_neg hh] at he
    rcases List.mem_append.mp he with h1 | h1
    · exact hm e h1
    · rw [List.mem_singleton] at h1
      rw [h1]
      exact ⟨hk, by
        intro w hw
        rw [List.mem_singleton] at hw
        rw [hw]
        exact hv⟩

/-- A fold preserves any invariant its step preserves. -/
theorem foldl_inv {α β : Type} (step : α → β → α) (P : α → Prop)
    (Q : β → Prop)
    (hstep : ∀ m c, P m → Q c → P (step m c)) :
    ∀ (cs : List β) (acc : α), P acc → (∀ c ∈ cs, Q c) →
      P (List.foldl step acc cs) := by
  intro cs
  induction cs with
  | nil => intro acc hp _; exact hp
  | cons c cs ih =>
      intro acc hp hq
      exact ih (step acc c) (hstep acc c hp (hq c (List.mem_cons_self _ _)))
        (fun x hx => hq x (List.mem_cons_of_mem _ hx))

/-- Hex digits decode below 16. -/
theorem hexVal_lt (c : Nat) (h : isHexDigitB c = true) : hexVal c < 16 := by
  simp only [isHexDigitB, Bool.or_eq_true, Bool.and_eq_true,
    decide_eq_true_eq] at h
  unfold hexVal
  split <;> rename_i h1
  · omega
  · split <;> omega

/-- Unescaping keeps bytes below 256. -/
theorem queryUnescape_bytes (s : List Nat) (r : List Nat)
    (hr : queryUnescape s = some r) (hs : ∀ b ∈ s, b < 256) :
    ∀ b ∈ r, b < 256 := by
  induction s using queryUnescape.induct generalizing r with
  | case1 =>
      unfold queryUnescape at hr
      cases hr
      intro b hb
      cases hb
  | case2 a b rest2 hhex ih =>
      obtain ⟨ha2, hb2⟩ : isHexDigitB a = true ∧ isHexDigitB b = true := by
        simpa using hhex
      rw [queryUnescape_pct_cons a b rest2 ha2 hb2] at hr
      cases hr0 : queryUnescape rest2 with
      | none => rw [hr0] at hr; cases hr
      | some r0 =>
          rw [hr0] at hr
          simp only [Option.map_some'] at hr
          cases hr
          intro x hx
          rcases List.mem_cons.mp hx with h1 | h1
          · subst h1
            have := hexVal_lt a ha2
            have := hexVal_lt b hb2
            omega
          · exact ih r0 hr0
              (fun y hy => hs y (by
                simp only [List.mem_cons]
                right; right; right; exact hy)) x h1
  | case3 a b rest2 hhex =>
      simp [queryUnescape, hhex] at hr
  | case4 rest hshape =>
      match rest, hshape with
      | [], _ => simp [queryUnescape] at hr
      | [a], _ => simp [queryUnescape] at hr
      | a :: b :: rest2, hshape => exact absurd rfl (fun h => hshape a b rest2 h)
  | case5 rest hne ih =>
      have heq : queryUnescape (43 :: rest) =
          (queryUnescape rest).map (fun r => 32 :: r) := by
        conv_lhs => unfold queryUnescape
        rw [if_neg (by omega : ¬ (43 : Nat) = 37), if_pos rfl]
      rw [heq] at hr
      cases hr0 : queryUnescape rest with
      | none => rw [hr0] at hr; cases hr
      | some r0 =>
          rw [hr0] at hr
          simp only [Option.map_some'] at hr
          cases hr
          intro x hx
          rcases List.mem_cons.mp hx with h1 | h1
          · subst h1; omega
          · exact ih r0 hr0
              (fun y hy => hs y (List.mem_cons_of_mem _ hy)) x h1
  | case6 c rest h37 h43 ih =>
      rw [queryUnescape_other_cons c rest h37 h43] at hr
      cases hr0 : queryUnescape rest with
      | none => rw [hr0] at hr; cases hr
      | some r0 =>
          rw [hr0] at hr
          simp only [Option.map_some'] at hr
          cases hr
          intro x hx
          rcases List.mem_cons.mp hx with h1 | h1
          · rw [h1]; exact hs c (List.mem_cons_self _ _)
          · exact ih r0 hr0
              (fun y hy => hs y (List.mem_cons_of_mem _ hy)) x h1

/-- The left part of a cut is made of bytes of the input. -/
theorem cutByte_fst_subset (s : List Nat) (sep : Nat) :
    ∀ x ∈ (cutByte s sep).1, x ∈ s := by
  unfold cutByte
  split <;> intro x hx
  · exact List.take_subset _ _ hx
  · exact hx

/-- The right part of a cut is made of bytes of the input. -/
theorem cutByte_snd_subset (s : List Nat) (sep : Nat) :
    ∀ x ∈ (cutByte s sep).2, x ∈ s := by
  unfold cutByte
  split <;> intro x hx
  · exact List.drop_subset _ _ hx
  · cases hx

/-- The parse step preserves distinctness of the keys. -/
theorem parseStep_nodup (m : UrlValues) (comp : List Nat)
    (h : (m.map Prod.fst).Nodup) :
    ((parseStep m comp).map Prod.fst).Nodup := by
  simp only [parseStep]
  repeat' split
  all_goals first
    | exact valuesAdd_nodup _ _ _ h
    | exact h

/-- The parse step keeps every value list nonempty. -/
theorem parseStep_values_ne (m : UrlValues) (comp : List Nat)
    (h : ∀ e ∈ m, e.2 ≠ []) : ∀ e ∈ parseStep m comp, e.2 ≠ [] := by
  simp only [parseStep]
  repeat' split
  all_goals first
    | exact valuesAdd_values_ne _ _ _ h
    | exact h

/-- The parse step keeps entries bounded when the component is. -/
theorem parseStep_bounded (m : UrlValues) (comp : List Nat)
    (hm : ∀ e ∈ m, entryBounded e) (hc : ∀ b ∈ comp, b < 256) :
    ∀ e ∈ parseStep m comp, entryBounded e := by
  simp only [parseStep]
  split
  · exact hm
  split
  · exact hm
  split
  · rename_i k v hk hv
    refine valuesAdd_bounded m k v hm ?_ ?_
    · exact queryUnescape_bytes _ _ hk
        (fun b hb => hc b (cutByte_fst_subset comp 61 b hb))
    · exact queryUnescape_bytes _ _ hv
        (fun b hb => hc b (cutByte_snd_subset comp 61 b hb))
  · exact hm

/-- Bytes of a split component are bytes of the split string. -/
theorem splitOn_bytes (rq c : List Nat) (b : Nat)
    (hc : c ∈ rq.splitOn 38) (hb : b ∈ c) : b ∈ rq := by
  have := mem_intercalate 38 b _ c hc hb
  rwa [List.intercalate_splitOn] at this

/-- Parsed queries have pairwise distinct keys. -/
theorem parseQuery_nodup (rq : List Nat) :
    ((parseQuery rq).map Prod.fst).Nodup := by
  unfold parseQuery
  exact foldl_inv parseStep (fun m => (m.map Prod.fst).Nodup) (fun _ => True)
    (fun m c hm _ => parseStep_nodup m c hm) _ [] (by simp)
    (fun _ _ => trivial)

/-- Parsed queries have nonempty value lists. -/
theorem parseQuery_values_ne (rq : List Nat) :
    ∀ e ∈ parseQuery rq, e.2 ≠ [] := by
  unfold parseQuery
  exact foldl_inv parseStep (fun m => ∀ e ∈ m, e.2 ≠ []) (fun _ => True)
    (fun m c hm _ => parseStep_values_ne m c hm) _ []
    (fun e he => absurd he (List.not_mem_nil e)) (fun _ _ => trivial)

/-- Parsed queries of byte strings have bounded entries. -/
theorem parseQuery_bounded (rq : List Nat) (h : ∀ b ∈ rq, b < 256) :
    ∀ e ∈ parseQuery rq, entryBounded e := by
  unfold parseQuery
  exact foldl_inv parseStep (fun m => ∀ e ∈ m, entryBounded e)
    (fun c => ∀ b ∈ c, b < 256)
    (fun m c hm hc => parseStep_bounded m c hm hc) _ []
    (fun e he => absurd he (List.not_mem_nil e))
    (fun c hc b hb => h b (splitOn_bytes rq c b hc hb))

/-- Congruence for flatMap. -/
theorem flatMap_congr {α β : Type} (l : List α) (f g : α → List β)
    (h : ∀ a ∈ l, f a = g a) : l.flatMap f = l.flatMap g := by
  induction l with
  | nil => rfl
  | cons a l ih =>
      simp only [List.flatMap_cons]
      rw [h a (List.mem_cons_self _ _),
        ih (fun x hx => h x (List.mem_cons_of_mem _ hx))]

/-- flatMap after map fuses. -/
theorem flatMap_of_map {α β γ : Type} (l : List α) (g : α → β)
    (f : β → List γ) :
    (l.map g).flatMap f = l.flatMap (fun a => f (g a)) := by
  induction l with
  | nil => rfl
  | cons a l ih => simp only [List.map_cons, List.flatMap_cons, ih]

/-- Under distinct keys, a member entry is what lookup finds. -/
theorem assocFind_eq_of_mem_nodup {α : Type} (m : List (List Nat × α))
    (hnd : (m.map Prod.fst).Nodup) (e : List Nat × α) (he : e ∈ m) :
    assocFind m e.1 = some e.2 := by
  induction m with
  | nil => cases he
  | cons a m ih =>
      rcases List.mem_cons.mp he with h1 | h1
      · subst h1
        simp [assocFind]
      · have hnd' := hnd
        rw [List.map_cons, List.nodup_cons] at hnd'
        have hne : a.1 ≠ e.1 := by
          intro hc
          exact hnd'.1 (hc ▸ List.mem_map.mpr ⟨e, h1, rfl⟩)
        unfold assocFind
        rw [if_neg hne]
        exact ih hnd'.2 h1

/-- replacePlus distributes over append. -/
theorem replacePlus_append (a b : List Nat) :
    replacePlus (a ++ b) = replacePlus a ++ replacePlus b := by
  unfold replacePlus
  exact List.flatMap_append a b _

/-- replacePlus distributes over ampersand-joined pieces. -/
theorem replacePlus_intercalate (ps : List (List Nat)) :
    replacePlus (List.intercalate [38] ps) =
      List.intercalate [38] (ps.map replacePlus) := by
  induction ps with
  | nil => rfl
  | cons p ps ih =>
      cases ps with
      | nil => simp [intercalate_single]
      | cons p2 ps2 =>
          rw [intercalate_two, List.map_cons, replacePlus_append]
          rw [show replacePlus (38 :: List.intercalate [38] (p2 :: ps2)) =
            38 :: replacePlus (List.intercalate [38] (p2 :: ps2)) from rfl]
          rw [ih, List.map_cons, intercalate_two]

/-- The encode pieces, read off the key-sorted entry list. -/
theorem encodePieces_entries (q : UrlValues)
    (hnd : (q.map Prod.fst).Nodup) :
    encodePieces q = (sortEntriesByKey q).flatMap
      (fun e => e.2.map (fun w => queryEscape e.1 ++ [61] ++ queryEscape w)) := by
  unfold encodePieces
  rw [show (fun x : List Nat × List (List Nat) => x.1) = Prod.fst from rfl,
    ← sortEntries_map_fst, flatMap_of_map]
  apply flatMap_congr
  intro e he
  have he' : e ∈ insSortBy
      (fun a b : List Nat × List (List Nat) => lexLe a.1 b.1) q := he
  have heq : assocFind q e.1 = some e.2 :=
    assocFind_eq_of_mem_nodup q hnd e
      ((insSortBy_perm (fun a b : List Nat × List (List Nat) =>
        lexLe a.1 b.1) q).mem_iff.mp he')
  rw [valuesGetD, heq]
  rfl

/-- A piece after plus replacement is the uniform escape around equals. -/
theorem replacePlus_piece (k w : List Nat) :
    replacePlus (queryEscape k ++ [61] ++ queryEscape w) =
      k.flatMap pctOrSelf ++ 61 :: w.flatMap pctOrSelf := by
  rw [replacePlus_append, replacePlus_append, replacePlus_queryEscape,
    replacePlus_queryEscape]
  rw [show replacePlus [61] = [61] from rfl]
  rw [List.append_assoc]
  rfl

/-- The parse step on an escaped key=value piece adds the pair. -/
theorem parseStep_piece (m : UrlValues) (k w : List Nat)
    (hk : ∀ b ∈ k, b < 256) (hw : ∀ b ∈ w, b < 256) :
    parseStep m (k.flatMap pctOrSelf ++ 61 :: w.flatMap pctOrSelf) =
      valuesAdd m k w := by
  have hmem : (59 : Nat) ∉ k.flatMap pctOrSelf ++ 61 :: w.flatMap pctOrSelf := by
    intro hmem
    rcases List.mem_append.mp hmem with h | h
    · exact (flatMap_pctOrSelf_no_sep k 59 h).2.1 rfl
    · rcases List.mem_cons.mp h with h | h
      · omega
      · exact (flatMap_pctOrSelf_no_sep w 59 h).2.1 rfl
  have hcut : cutByte (k.flatMap pctOrSelf ++ 61 :: w.flatMap pctOrSelf) 61 =
      (k.flatMap pctOrSelf, w.flatMap pctOrSelf) :=
    cutByte_recover _ _ _ (fun h => (flatMap_pctOrSelf_no_sep k 61 h).2.2 rfl)
  simp [parseStep, hmem, hcut, queryUnescape_flatMap_pctOrSelf k hk,
    queryUnescape_flatMap_pctOrSelf w hw]

/-- Appending one more value to the key stored at the end. -/
theorem valuesAdd_last (acc : UrlValues) (k : List Nat)
    (l : List (List Nat)) (v : List Nat) (hacc : ∀ e ∈ acc, e.1 ≠ k) :
    valuesAdd (acc ++ [(k, l)]) k v = acc ++ [(k, l ++ [v])] := by
  unfold valuesAdd
  have hhas : assocHas (acc ++ [(k, l)]) k = true := by
    rw [assocHas_append]
    simp [assocHas]
  rw [if_pos hhas, List.map_append]
  have hid : ∀ e ∈ acc,
      (if e.1 = k then (e.1, e.2 ++ [v]) else e) = e :=
    fun e he => if_neg (hacc e he)
  rw [List.map_congr_left hid]
  simp

/-- Folding pieces of one key appends its values in order. -/
theorem foldl_parseStep_values (k : List Nat) (hk : ∀ b ∈ k, b < 256) :
    ∀ (vs : List (List Nat)) (acc : UrlValues) (l : List (List Nat)),
    (∀ e ∈ acc, e.1 ≠ k) → (∀ w ∈ vs, ∀ b ∈ w, b < 256) →
    List.foldl parseStep (acc ++ [(k, l)])
      (vs.map (fun w => k.flatMap pctOrSelf ++ 61 :: w.flatMap pctOrSelf)) =
      acc ++ [(k, l ++ vs)] := by
  intro vs
  induction vs with
  | nil =>
      intro acc l hacc _
      simp
  | cons v vs ih =>
      intro acc l hacc hb
      simp only [List.map_cons, List.foldl_cons]
      rw [parseStep_piece _ k v hk (hb v (List.mem_cons_self _ _)),
        valuesAdd_last acc k l v hacc,
        ih acc (l ++ [v]) hacc (fun w hw => hb w (List.mem_cons_of_mem _ hw)),
        List.append_assoc]
      rfl

/-- Folding the pieces of grouped entries with distinct keys rebuilds the
entry list. -/
theorem foldl_parseStep_grouped :
    ∀ (entries : UrlValues) (acc : UrlValues),
    (∀ e ∈ entries, ∀ a ∈ acc, a.1 ≠ e.1) →
    ((entries.map Prod.fst).Nodup) →
    (∀ e ∈ entries, e.2 ≠ []) →
    (∀ e ∈ entries, entryBounded e) →
    List.foldl parseStep acc
      (entries.flatMap (fun e => e.2.map
        (fun w => e.1.flatMap pctOrSelf ++ 61 :: w.flatMap pctOrSelf))) =
      acc ++ entries := by
  intro entries
  induction entries with
  | nil =>
      intro acc _ _ _ _
      simp
  | cons e es ih =>
      intro acc hdisj hnd hne hbd
      simp only [List.flatMap_cons]
      rw [List.foldl_append]
      obtain ⟨v, vs, hv⟩ : ∃ v vs, e.2 = v :: vs := by
        cases hev : e.2 with
        | nil => exact absurd hev (hne e (List.mem_cons_self _ _))
        | cons v vs => exact ⟨v, vs, rfl⟩
      have hbde := hbd e (List.mem_cons_self _ _)
      have hacc : ∀ a ∈ acc, a.1 ≠ e.1 :=
        fun a ha => hdisj e (List.mem_cons_self _ _) a ha
      have hAdd : valuesAdd acc e.1 v = acc ++ [(e.1, [v])] := by
        unfold valuesAdd
        rw [if_neg (by
          rw [(assocHas_eq_false_iff acc e.1).mpr hacc]
          simp)]
      rw [hv]
      simp only [List.map_cons, List.foldl_cons]
      rw [parseStep_piece acc e.1 v hbde.1
          (hbde.2 v (by rw [hv]; exact List.mem_cons_self _ _)),
        hAdd,
        foldl_parseStep_values e.1 hbde.1 vs acc [v] hacc
          (fun w hw => hbde.2 w (by rw [hv]; exact List.mem_cons_of_mem _ hw))]
      have hnd' := hnd
      rw [List.map_cons, List.nodup_cons] at hnd'
      rw [ih (acc ++ [(e.1, [v] ++ vs)])
        (by
          intro x hx a ha
          rcases List.mem_append.mp ha with h1 | h1
          · exact hdisj x (List.mem_cons_of_mem _ hx) a h1
          · rw [List.mem_singleton] at h1
            rw [h1]
            intro hc
            exact hnd'.1 (hc ▸ List.mem_map.mpr ⟨x, hx, rfl⟩))
        hnd'.2
        (fun x hx => hne x (List.mem_cons_of_mem _ hx))
        (fun x hx => hbd x (List.mem_cons_of_mem _ hx))]
      have hcons : ((e.1, [v] ++ vs) : List Nat × List (List Nat)) = e := by
        rw [show ([v] ++ vs : List (List Nat)) = v :: vs from rfl, ← hv]
      rw [hcons, List.append_assoc]
      rfl

/-- map after flatMap fuses. -/
theorem map_of_flatMap {α β γ : Type} (l : List α) (f : α → List β)
    (g : β → γ) :
    (l.flatMap f).map g = l.flatMap (fun a => (f a).map g) := by
  induction l with
  | nil => rfl
  | cons a l ih => simp only [List.flatMap_cons, List.map_append, ih]

/-- Parsing the re-encoded query recovers the entries in key order. -/
theorem parse_encode_roundtrip (q : UrlValues)
    (hnd : (q.map Prod.fst).Nodup)
    (hne : ∀ e ∈ q, e.2 ≠ [])
    (hbd : ∀ e ∈ q, entryBounded e) :
    parseQuery (replacePlus (valuesEncode q)) = sortEntriesByKey q := by
  have hperm := insSortBy_perm
    (fun a b : List Nat × List (List Nat) => lexLe a.1 b.1) q
  have hmem : ∀ e ∈ sortEntriesByKey q, e ∈ q := fun e he =>
    hperm.mem_iff.mp he
  have hnd2 : ((sortEntriesByKey q).map Prod.fst).Nodup := by
    rw [sortEntries_map_fst]
    exact ((insSortBy_perm lexLe (q.map Prod.fst)).nodup_iff).mpr hnd
  have hne2 : ∀ e ∈ sortEntriesByKey q, e.2 ≠ [] := fun e he =>
    hne e (hmem e he)
  have hbd2 : ∀ e ∈ sortEntriesByKey q, entryBounded e := fun e he =>
    hbd e (hmem e he)
  by_cases hq0 : q = []
  · subst hq0
    rfl
  · have hpieces : (encodePieces q).map replacePlus =
        (sortEntriesByKey q).flatMap (fun e => e.2.map
          (fun w => e.1.flatMap pctOrSelf ++ 61 :: w.flatMap pctOrSelf)) := by
      rw [encodePieces_entries q hnd, map_of_flatMap]
      apply flatMap_congr
      intro e _
      rw [List.map_map]
      apply List.map_congr_left
      intro w _
      exact replacePlus_piece e.1 w
    have hsne : sortEntriesByKey q ≠ [] := by
      intro hc
      have hlen : (sortEntriesByKey q).length = q.length := hperm.length_eq
      rw [hc] at hlen
      exact hq0 (List.length_eq_zero.mp hlen.symm)
    have hno38 : ∀ l ∈ (encodePieces q).map replacePlus, (38 : Nat) ∉ l := by
      rw [hpieces]
      intro l hl
      rcases List.mem_flatMap.mp hl with ⟨e, _, hle⟩
      rcases List.mem_map.mp hle with ⟨w, _, hweq⟩
      rw [← hweq]
      intro hmem38
      rcases List.mem_append.mp hmem38 with h | h
      · exact (flatMap_pctOrSelf_no_sep e.1 38 h).1 rfl
      · rcases List.mem_cons.mp h with h | h
        · omega
        · exact (flatMap_pctOrSelf_no_sep w 38 h).1 rfl
    have hpw : (encodePieces q).map replacePlus ≠ [] := by
      rw [hpieces]
      cases hs : sortEntriesByKey q with
      | nil => exact absurd hs hsne
      | cons e es =>
          rw [List.flatMap_cons]
          intro hc
          rcases List.append_eq_nil.mp hc with ⟨h1, _⟩
          exact hne2 e (by rw [hs]; exact List.mem_cons_self _ _)
            (List.map_eq_nil_iff.mp h1)
    have henc : replacePlus (valuesEncode q) =
        List.intercalate [38] ((encodePieces q).map replacePlus) := by
      unfold valuesEncode
      exact replacePlus_intercalate _
    unfold parseQuery
    rw [henc, List.splitOn_intercalate ((encodePieces q).map replacePlus)
      38 hno38 hpw, hpieces,
      foldl_parseStep_grouped (sortEntriesByKey q) []
        (fun e _ a ha => absurd ha (List.not_mem_nil a)) hnd2 hne2 hbd2]
    rfl

/-- Lookup is invariant under permutation when keys are distinct. -/
theorem assocFind_perm {α : Type} {l l' : List (List Nat × α)}
    (hp : List.Perm l l') :
    (l.map Prod.fst).Nodup → ∀ k, assocFind l k = assocFind l' k := by
  induction hp with
  | nil => intro _ k; rfl
  | cons x hp ih =>
      intro hnd k
      rw [List.map_cons, List.nodup_cons] at hnd
      unfold assocFind
      by_cases hx : x.1 = k
      · rw [if_pos hx, if_pos hx]
      · rw [if_neg hx, if_neg hx]
        exact ih hnd.2 k
  | swap x y l =>
      intro hnd k
      simp only [List.map_cons, List.nodup_cons, List.mem_cons] at hnd
      by_cases hy : y.1 = k <;> by_cases hx : x.1 = k
      · exact absurd (hy.trans hx.symm) (fun hc => hnd.1 (Or.inl hc))
      · simp [assocFind, hy, hx]
      · simp [assocFind, hy, hx]
      · simp [assocFind, hy, hx]
  | trans h1 h2 ih1 ih2 =>
      intro hnd k
      have hnd2 := ((h1.map Prod.fst).nodup_iff).mp hnd
      rw [ih1 hnd k, ih2 hnd2 k]

/-- Sorting the entries keeps each key's values. -/
theorem valuesGetD_sortEntries (q : UrlValues)
    (hnd : (q.map Prod.fst).Nodup) (k : List Nat) :
    valuesGetD (sortEntriesByKey q) k = valuesGetD q k := by
  unfold valuesGetD sortEntriesByKey
  rw [assocFind_perm
    (insSortBy_perm (fun a b : List Nat × List (List Nat) => lexLe a.1 b.1) q)
    (by
      show ((sortEntriesByKey q).map Prod.fst).Nodup
      rw [sortEntries_map_fst]
      exact ((insSortBy_perm lexLe (q.map Prod.fst)).nodup_iff).mpr hnd) k]

/-- Sorting the entries leaves the encoded pieces unchanged. -/
theorem encodePieces_sortEntries (q : UrlValues)
    (hnd : (q.map Prod.fst).Nodup) :
    encodePieces (sortEntriesByKey q) = encodePieces q := by
  unfold encodePieces
  rw [show (fun x : List Nat × List (List Nat) => x.1) = Prod.fst from rfl,
    sortEntries_map_fst,
    insSortBy_idem lexLe lexLe_total lexLe_trans]
  apply flatMap_congr
  intro k _
  rw [valuesGetD_sortEntries q hnd k]

/-- Sorting the entries leaves the encoded query unchanged. -/
theorem valuesEncode_sortEntries (q : UrlValues)
    (hnd : (q.map Prod.fst).Nodup) :
    valuesEncode (sortEntriesByKey q) = valuesEncode q := by
  unfold valuesEncode
  rw [encodePieces_sortEntries q hnd]

/-- Per-key sorting does not change the key list. -/
theorem sortEachValues_map_fst (m : UrlValues) :
    (sortEachValues m).map Prod.fst = m.map Prod.fst := by
  unfold sortEachValues
  rw [List.map_map]
  exact List.map_congr_left (fun e _ => rfl)

/-- Per-key sorting is the identity once every value list is sorted. -/
theorem sortEachValues_id (m : UrlValues)
    (h : ∀ e ∈ m, insSortBy lexLe e.2 = e.2) : sortEachValues m = m := by
  unfold sortEachValues
  have : ∀ e ∈ m, ((e.1, insSortBy lexLe e.2) : List Nat × List (List Nat)) = e := by
    intro e he
    rw [h e he]
  rw [List.map_congr_left this]
  exact List.map_id' m

/-- The signed raw query is a fixed point of parse-sort-encode. -/
theorem signRawQuery_stable (rq0 : List Nat) (hb : ∀ b ∈ rq0, b < 256) :
    replacePlus (valuesEncode (sortEachValues (parseQuery (replacePlus
      (valuesEncode (sortEachValues (parseQuery rq0))))))) =
    replacePlus (valuesEncode (sortEachValues (parseQuery rq0))) := by
  have hnd := parseQuery_nodup rq0
  have hne := parseQuery_values_ne rq0
  have hbd := parseQuery_bounded rq0 hb
  have hnd2 : ((sortEachValues (parseQuery rq0)).map Prod.fst).Nodup := by
    rw [sortEachValues_map_fst]
    exact hnd
  have hne2 : ∀ e ∈ sortEachValues (parseQuery rq0), e.2 ≠ [] := by
    intro e he
    rcases List.mem_map.mp he with ⟨e0, h0, heq⟩
    rw [← heq]
    intro hc
    have hp := insSortBy_perm lexLe e0.2
    rw [show ((e0.1, insSortBy lexLe e0.2) :
      List Nat × List (List Nat)).2 = insSortBy lexLe e0.2 from rfl] at hc
    rw [hc] at hp
    exact hne e0 h0 hp.symm.eq_nil
  have hbd2 : ∀ e ∈ sortEachValues (parseQuery rq0), entryBounded e := by
    intro e he
    rcases List.mem_map.mp he with ⟨e0, h0, heq⟩
    rw [← heq]
    refine ⟨(hbd e0 h0).1, ?_⟩
    intro w hw
    exact (hbd e0 h0).2 w ((insSortBy_perm lexLe e0.2).mem_iff.mp hw)
  rw [parse_encode_roundtrip _ hnd2 hne2 hbd2]
  rw [sortEachValues_id (sortEntriesByKey (sortEachValues (parseQuery rq0)))
    (by
      intro e he
      have he2 : e ∈ insSortBy
          (fun a b : List Nat × List (List Nat) => lexLe a.1 b.1)
          (sortEachValues (parseQuery rq0)) := he
      have he' : e ∈ sortEachValues (parseQuery rq0) :=
        (insSortBy_perm (fun a b : List Nat × List (List Nat) =>
          lexLe a.1 b.1) (sortEachValues (parseQuery rq0))).mem_iff.mp he2
      rcases List.mem_map.mp he' with ⟨e0, _, heq⟩
      rw [← heq]
      exact insSortBy_idem lexLe lexLe_total lexLe_trans e0.2)]
  rw [valuesEncode_sortEntries _ hnd2]

/-- The canonical scan ignores in-place value replacement at an invalid
key. -/
theorem canonicalScan_fold_map_replace (rule : Rule) (k : List Nat)
    (v : List (List Nat)) (hr : Rule.IsValid rule k = false) :
    ∀ (h : HttpHeader) (acc : List (List Nat) × HttpHeader),
    (h.map fun kv => if kv.1 = k then (kv.1, v) else kv).foldl
      (canonicalScanStep rule) acc = h.foldl (canonicalScanStep rule) acc := by
  intro h
  induction h with
  | nil => intro acc; rfl
  | cons e es ih =>
      intro acc
      simp only [List.map_cons, List.foldl_cons]
      by_cases he : e.1 = k
      · rw [if_pos he,
          canonicalScanStep_skip_invalid (by rw [show ((e.1, v) :
            List Nat × List (List Nat)).1 = e.1 from rfl, he]; exact hr),
          canonicalScanStep_skip_invalid (by rw [he]; exact hr), ih]
      · rw [if_neg he, ih]

/-- The canonical scan ignores a set at a rule-invalid key. -/
theorem canonicalScan_fold_assocSet (rule : Rule) (h : HttpHeader)
    (k : List Nat) (v : List (List Nat)) (hr : Rule.IsValid rule k = false)
    (acc : List (List Nat) × HttpHeader) :
    (assocSet h k v).foldl (canonicalScanStep rule) acc =
      h.foldl (canonicalScanStep rule) acc := by
  unfold assocSet
  by_cases hh : assocHas h k = true
  · rw [if_pos hh, canonicalScan_fold_map_replace rule k v hr h acc]
  · rw [if_neg hh, List.foldl_append]
    simp only [List.foldl_cons, List.foldl_nil]
    rw [canonicalScanStep_skip_invalid hr]

/-- Canonical headers ignore a set at a rule-invalid key. -/
theorem buildCanonicalHeaders_assocSet (host : List Nat) (rule : Rule)
    (h : HttpHeader) (cl : Int) (k : List Nat) (v : List (List Nat))
    (hr : Rule.IsValid rule k = false) :
    BuildCanonicalHeaders host rule (assocSet h k v) cl =
      BuildCanonicalHeaders host rule h cl := by
  simp only [BuildCanonicalHeaders]
  rw [canonicalScan_fold_assocSet rule h k v hr]

/-- The authorization header name is rejected by the ignore rule. -/
theorem ignoredHeaders_auth_invalid :
    Rule.IsValid IgnoredHeaders AuthorizationHeader = false := by decide

/-- The authorization and date header names differ. -/
theorem authorization_ne_amzdate : AuthorizationHeader ≠ AmzDateKey := by
  decide

/-- The new host field computed by SanitizeHostForHeader. -/
def sanitizeHostField (scheme host urlHost : List Nat) : List Nat :=
  let h := if host ≠ [] then host else urlHost
  let port := PortOnly h
  if port ≠ [] ∧ IsDefaultPort scheme port = true then StripPort h else host

/-- SanitizeHostForHeader only rewrites the host field. -/
theorem sanitizeHostForHeader_eq (r : HttpRequest) :
    SanitizeHostForHeader r =
      { r with host := sanitizeHostField r.url.scheme r.host r.url.host } := by
  simp only [SanitizeHostForHeader, sanitizeHostField, GetHost]
  split <;> split <;> rfl

/-- The signed raw query of a request. -/
def signRawQueryOf (req0 : HttpRequest) : List Nat :=
  replacePlus (valuesEncode (sortEachValues (parseQuery req0.url.rawQuery)))

/-- The headers after the X-Amz-Date stamp. -/
def signHeaders1Of (s : HttpSignerParams) (req0 : HttpRequest) : HttpHeader :=
  assocSet req0.header AmzDateKey [s.time.timeFormat]

/-- The sanitized host field of the signed request. -/
def signHostOf (req0 : HttpRequest) : List Nat :=
  sanitizeHostField req0.url.scheme req0.host req0.url.host

/-- The derived signing key and updated cache of a sign call. -/
def signKeyOf (s : HttpSignerParams) (cache : DKCache) : List Nat × DKCache :=
  SigningKeyDeriver.DeriveKey cache s.accessKeyID s.secretAccessKey
    s.serviceName s.region s.time

/-- The canonical headers triple of a sign call. -/
def signBchOf (s : HttpSignerParams) (req0 : HttpRequest) :
    HttpHeader × List Nat × List Nat :=
  BuildCanonicalHeaders
    (if (signHostOf req0).length > 0 then signHostOf req0 else req0.url.host)
    IgnoredHeaders (signHeaders1Of s req0) req0.contentLength

/-- The string to sign of a sign call. -/
def signStrToSignOf (s : HttpSignerParams) (req0 : HttpRequest) : List Nat :=
  BuildStringToSign SigningAlgorithm s.time.timeFormat
    (BuildCredentialScope s.time s.region s.serviceName)
    (BuildCanonicalString req0.method (GetURIPath req0.url)
      (signRawQueryOf req0) (signBchOf s req0).2.1 (signBchOf s req0).2.2
      s.payloadHash)

/-- The Authorization header value of a sign call. -/
def signAuthOf (s : HttpSignerParams) (req0 : HttpRequest) (cache : DKCache) :
    List Nat :=
  BuildAuthorizationHeader
    (s.accessKeyID ++ [47] ++ BuildCredentialScope s.time s.region s.serviceName)
    (signBchOf s req0).2.1
    (BuildSignature (signKeyOf s cache).1 (signStrToSignOf s req0))

/-- The request record produced by build for header signing. -/
def signReqOf (s : HttpSignerParams) (req0 : HttpRequest) (cache : DKCache) :
    HttpRequest :=
  { method := req0.method,
    url := { req0.url with rawQuery := signRawQueryOf req0 },
    header := assocSet (signHeaders1Of s req0) AuthorizationHeader
      [signAuthOf s req0 cache],
    host := signHostOf req0,
    contentLength := req0.contentLength }

/-- Unfolding equation of build for header signing: the result request is
the input with stamped date header, authorization header, sanitized host
and re-encoded query. -/
theorem build_eq (s : HttpSignerParams) (req0 : HttpRequest) (cache : DKCache)
    (hpre : s.isPreSign = false) :
    build s req0 cache =
      (signReqOf s req0 cache, (signKeyOf s cache).2) := by
  simp only [build, signReqOf, signAuthOf, signStrToSignOf, signBchOf,
    signKeyOf, signHostOf, signHeaders1Of, signRawQueryOf,
    setRequiredSigningFields, SanitizeHostForHeader, GetHost,
    sanitizeHostField, hpre, Bool.false_eq_true, if_false]
  split <;> split <;> rfl

/-- A second key derivation with the same parameters hits the cache. -/
theorem signKeyOf_stable (s : HttpSignerParams) (cache : DKCache) :
    signKeyOf s (signKeyOf s cache).2 =
      ((signKeyOf s cache).1, (signKeyOf s cache).2) := by
  unfold signKeyOf
  rw [skd_deriveKey_eq,
    deriveKey_cache_hit_after cache s.accessKeyID s.secretAccessKey
      s.serviceName s.region s.time s.time (isSameDay_refl s.time)]

/-- The URI path ignores the query string. -/
theorem getURIPath_rawQuery (u : URLV) (x : List Nat) :
    GetURIPath { u with rawQuery := x } = GetURIPath u := rfl

/-- Re-signing the signed request with the same parameters reproduces the
same request and cache, provided the sanitized host is stable. -/
theorem build_idempotent (s : HttpSignerParams) (req0 : HttpRequest)
    (cache : DKCache) (hpre : s.isPreSign = false)
    (hb : ∀ b ∈ req0.url.rawQuery, b < 256)
    (hhost : sanitizeHostField req0.url.scheme (signHostOf req0) req0.url.host
      = signHostOf req0) :
    build s (build s req0 cache).1 (build s req0 cache).2 =
      build s req0 cache := by
  rw [build_eq s req0 cache hpre,
    build_eq s (signReqOf s req0 cache) ((signKeyOf s cache).2) hpre]
  have hrq : signRawQueryOf (signReqOf s req0 cache) = signRawQueryOf req0 :=
    signRawQuery_stable req0.url.rawQuery hb
  have hh1 : signHeaders1Of s (signReqOf s req0 cache) =
      (signReqOf s req0 cache).header := by
    have hvals2 : ∀ e ∈ assocSet (signHeaders1Of s req0) AuthorizationHeader
        [signAuthOf s req0 cache], e.1 = AmzDateKey →
        e.2 = [s.time.timeFormat] :=
      assocSet_vals_other (signHeaders1Of s req0) AmzDateKey
        AuthorizationHeader [s.time.timeFormat] [signAuthOf s req0 cache]
        authorization_ne_amzdate
        (assocSet_vals req0.header AmzDateKey [s.time.timeFormat])
    have hhas2 : assocHas (assocSet (signHeaders1Of s req0)
        AuthorizationHeader [signAuthOf s req0 cache]) AmzDateKey = true := by
      rw [assocHas_assocSet_other (signHeaders1Of s req0) AmzDateKey
        AuthorizationHeader [signAuthOf s req0 cache] authorization_ne_amzdate]
      exact assocHas_assocSet_self req0.header AmzDateKey [s.time.timeFormat]
    exact assocSet_stable _ _ _ hvals2 hhas2
  have hhostR : signHostOf (signReqOf s req0 cache) = signHostOf req0 := hhost
  have hbch : signBchOf s (signReqOf s req0 cache) = signBchOf s req0 := by
    unfold signBchOf
    rw [hhostR, hh1]
    simp only [signReqOf]
    exact buildCanonicalHeaders_assocSet _ IgnoredHeaders
      (signHeaders1Of s req0) req0.contentLength AuthorizationHeader
      [signAuthOf s req0 cache] ignoredHeaders_auth_invalid
  have hsts : signStrToSignOf s (signReqOf s req0 cache) =
      signStrToSignOf s req0 := by
    unfold signStrToSignOf
    rw [hbch, hrq]
    simp only [signReqOf]
    rw [getURIPath_rawQuery]
  have hauth : signAuthOf s (signReqOf s req0 cache) ((signKeyOf s cache).2) =
      signAuthOf s req0 cache := by
    unfold signAuthOf
    rw [hbch, hsts, signKeyOf_stable s cache]
  have hhdr : assocSet (signHeaders1Of s (signReqOf s req0 cache))
      AuthorizationHeader
      [signAuthOf s (signReqOf s req0 cache) ((signKeyOf s cache).2)] =
      (signReqOf s req0 cache).header := by
    rw [hh1, hauth]
    simp only [signReqOf]
    exact assocSet_assocSet_same (signHeaders1Of s req0) AuthorizationHeader
      [signAuthOf s req0 cache]
  show ({ method := (signReqOf s req0 cache).method,
          url := { (signReqOf s req0 cache).url with
            rawQuery := signRawQueryOf (signReqOf s req0 cache) },
          header := assocSet (signHeaders1Of s (signReqOf s req0 cache))
            AuthorizationHeader
            [signAuthOf s (signReqOf s req0 cache) ((signKeyOf s cache).2)],
          host := signHostOf (signReqOf s req0 cache),
          contentLength := (signReqOf s req0 cache).contentLength },
        (signKeyOf s ((signKeyOf s cache).2)).2) =
    (signReqOf s req0 cache, (signKeyOf s cache).2)
  rw [hrq, hhostR, hhdr, signKeyOf_stable s cache]
  rfl

/-- Calendar-plausible times: the ranges Go's civil clock fields inhabit. -/
def validTime (t : GoTime) : Bool :=
  decide (t.year < 10000 ∧ 1 ≤ t.month ∧ t.month ≤ 12 ∧ 1 ≤ t.day ∧
    t.day ≤ 31 ∧ t.hour < 24 ∧ t.minute < 60 ∧ t.second < 60)

/-- The X-Amz-Date format is injective on valid times. -/
theorem timeFormat_inj (t1 t2 : GoTime) (hv1 : validTime t1 = true)
    (hv2 : validTime t2 = true) (hne : t1 ≠ t2) :
    t1.timeFormat ≠ t2.timeFormat := by
  intro heq
  apply hne
  cases t1 with
  | mk y1 mo1 d1 hh1 mi1 s1 =>
  cases t2 with
  | mk y2 mo2 d2 hh2 mi2 s2 =>
  simp only [validTime, decide_eq_true_eq] at hv1 hv2
  simp only [GoTime.timeFormat, pad4, pad2, List.cons_append,
    List.nil_append, List.cons.injEq, and_true] at heq
  simp only [GoTime.mk.injEq]
  omega

/-- A small configuration for the concrete signing facts. -/
def cCfg : Config :=
  { region := asciiBytes "r", accessKeyID := asciiBytes "A",
    secretAccessKey := asciiBytes "K", service := asciiBytes "s",
    threadSafety := false, disableHeaderHoisting := false }

/-- A bare request whose host sanitizes stably. -/
def cReqN : HttpRequest :=
  ⟨asciiBytes "GET",
   ⟨asciiBytes "https", [], asciiBytes "e", asciiBytes "/", []⟩,
   [], [], 0⟩

/-- A request whose bracketed host strips differently on each pass. -/
def cReqB : HttpRequest :=
  ⟨asciiBytes "GET",
   ⟨asciiBytes "http", [], [], asciiBytes "/", []⟩,
   [], asciiBytes "[a:80]:80", 0⟩

/-- A concrete signing time. -/
def cTime : GoTime := ⟨2024, 1, 2, 3, 4, 5⟩

/-- A second signing time, one second later. -/
def cTime2 : GoTime := ⟨2024, 1, 2, 3, 4, 6⟩

set_option maxHeartbeats 16000000 in
/-- C6: Header-signing is idempotent modulo timestamp, for requests whose
query is a byte string and whose host field sanitizes stably: re-signing
the signed request with the same time reproduces the identical result
(and Authorization header) and leaves the cache unchanged; for
calendar-valid distinct times the stored X-Amz-Date headers differ, and at
a concrete request the two signing times produce different Authorization
signatures. -/
theorem signHTTP_idempotent_modulo_timestamp
    (cfg : Config) (cache : DKCache) (req : HttpRequest) (hash : List Nat)
    (t t2 : GoTime) (hh : hash ≠ [])
    (hb : ∀ b ∈ req.url.rawQuery, b < 256)
    (hhost : sanitizeHostField req.url.scheme (signHostOf req) req.url.host =
      signHostOf req)
    (hv1 : validTime t = true) (hv2 : validTime t2 = true) (hne : t ≠ t2) :
    (SignHTTP cfg (SignHTTP cfg cache req hash t).2.2
        (SignHTTP cfg cache req hash t).2.1 hash t =
      (none, (SignHTTP cfg cache req hash t).2.1,
        (SignHTTP cfg cache req hash t).2.2)) ∧
    (assocFind (SignHTTP cfg cache req hash t).2.1.header AmzDateKey ≠
      assocFind (SignHTTP cfg cache req hash t2).2.1.header AmzDateKey) ∧
    assocFind (SignHTTP cCfg (SignHTTP cCfg [] cReqN (asciiBytes "x")
        cTime).2.2 cReqN (asciiBytes "x") cTime2).2.1.header
        AuthorizationHeader ≠
      assocFind (SignHTTP cCfg [] cReqN (asciiBytes "x")
        cTime).2.1.header AuthorizationHeader := by
  have hsp : ∀ (c : DKCache) (r : HttpRequest) (t' : GoTime),
      SignHTTP cfg c r hash t' =
        (none, (build (mkSignerParams cfg hash t' false) r c).1,
          (build (mkSignerParams cfg hash t' false) r c).2) := by
    intro c r t'
    unfold SignHTTP
    rw [if_neg hh]
  refine ⟨?_, ?_, by decide⟩
  · rw [hsp cache req t]
    show SignHTTP cfg (build (mkSignerParams cfg hash t false) req cache).2
        (build (mkSignerParams cfg hash t false) req cache).1 hash t =
      (none, (build (mkSignerParams cfg hash t false) req cache).1,
        (build (mkSignerParams cfg hash t false) req cache).2)
    rw [hsp _ _ t,
      build_idempotent (mkSignerParams cfg hash t false) req cache rfl hb
        hhost]
  · have e1 : ∀ t' : GoTime,
        assocFind (SignHTTP cfg cache req hash t').2.1.header AmzDateKey =
          some [t'.timeFormat] := by
      intro t'
      rw [hsp cache req t']
      show assocFind (build (mkSignerParams cfg hash t' false) req
        cache).1.header AmzDateKey = some [t'.timeFormat]
      rw [build_eq _ _ _ rfl]
      show assocFind (assocSet
        (signHeaders1Of (mkSignerParams cfg hash t' false) req)
        AuthorizationHeader
        [signAuthOf (mkSignerParams cfg hash t' false) req cache])
        AmzDateKey = some [t'.timeFormat]
      rw [assocFind_assocSet_other _ _ _ _ authorization_ne_amzdate]
      show assocFind (assocSet req.header AmzDateKey [t'.timeFormat])
        AmzDateKey = some [t'.timeFormat]
      exact assocFind_assocSet_self _ _ _
    rw [e1 t, e1 t2]
    intro hc
    simp only [Option.some.injEq, List.cons.injEq, and_true] at hc
    exact timeFormat_inj t t2 hv1 hv2 hne hc

set_option maxHeartbeats 16000000 in
/-- The unqualified idempotence sentence fails: re-signing a default-port
bracketed-host request with the same time changes the Authorization
header, because SanitizeHostForHeader strips the already stripped host a
second time. -/
theorem signHTTP_not_idempotent_counterexample :
    assocFind (SignHTTP cCfg (SignHTTP cCfg [] cReqB (asciiBytes "x")
        cTime).2.2 (SignHTTP cCfg [] cReqB (asciiBytes "x") cTime).2.1
        (asciiBytes "x") cTime).2.1.header AuthorizationHeader ≠
      assocFind (SignHTTP cCfg [] cReqB (asciiBytes "x") cTime).2.1.header
        AuthorizationHeader := by decide

/-- Witness: the idempotence and distinct-date facts at a concrete
configuration, request and time pair. -/
theorem signHTTP_idempotent_modulo_timestamp_witness :
    (asciiBytes "x" ≠ [] ∧ (∀ b ∈ cReqN.url.rawQuery, b < 256) ∧
      sanitizeHostField cReqN.url.scheme (signHostOf cReqN) cReqN.url.host =
        signHostOf cReqN ∧ validTime cTime = true ∧
      validTime cTime2 = true ∧ cTime ≠ cTime2) ∧
    ((SignHTTP cCfg (SignHTTP cCfg [] cReqN (asciiBytes "x") cTime).2.2
        (SignHTTP cCfg [] cReqN (asciiBytes "x") cTime).2.1 (asciiBytes "x")
        cTime =
      (none, (SignHTTP cCfg [] cReqN (asciiBytes "x") cTime).2.1,
        (SignHTTP cCfg [] cReqN (asciiBytes "x") cTime).2.2)) ∧
    (assocFind (SignHTTP cCfg [] cReqN (asciiBytes "x") cTime).2.1.header
        AmzDateKey ≠
      assocFind (SignHTTP cCfg [] cReqN (asciiBytes "x")
        cTime2).2.1.header AmzDateKey) ∧
    assocFind (SignHTTP cCfg (SignHTTP cCfg [] cReqN (asciiBytes "x")
        cTime).2.2 cReqN (asciiBytes "x") cTime2).2.1.header
        AuthorizationHeader ≠
      assocFind (SignHTTP cCfg [] cReqN (asciiBytes "x")
        cTime).2.1.header AuthorizationHeader) :=
  ⟨⟨by decide, by decide, by decide, by decide, by decide, by decide⟩,
    signHTTP_idempotent_modulo_timestamp cCfg [] cReqN (asciiBytes "x")
      cTime cTime2 (by decide) (by decide) (by decide) (by decide)
      (by decide) (by decide)⟩
